import Mathlib

/-!
Shallow embedding of the route-rainbow-mapper core
(`src/utils/sampleData.ts` and the pathfinding module `src/unnamed/part_001`:
`dijkstra` and `getColoredEdges`), together with proofs about it.

JavaScript numbers are embedded as exact rationals, with `WithTop ℚ` standing
for a number that may be `Infinity`; records keyed by node-id strings are
embedded as total functions updated pointwise, with the default value playing
the role of a missing key (`undefined` behaves like `Infinity`/`null` at every
site where a missing key can actually be read, see the comments at those
sites); the unbounded `while` loop is embedded with an explicit iteration
bound equal to the size of the unvisited set, and the termination theorems
below prove that bound is never hit early.
-/

namespace RouteRainbow

/-- `Edge` from src/utils/sampleData.ts: stored endpoint labels and a base
weight (travel time in minutes). The graph is semantically undirected. -/
structure Edge where
  source : String
  target : String
  weight : ℚ
deriving DecidableEq, Repr

/-- `Node` from src/utils/sampleData.ts. Only `id` is read by the core. -/
structure Node where
  id : String
  name : String
  x : ℚ
  y : ℚ
deriving DecidableEq, Repr

/-- `Graph` from src/utils/sampleData.ts. -/
structure Graph where
  nodes : List Node
  edges : List Edge
deriving DecidableEq, Repr

/-- `TrafficLevel` enum from src/utils/sampleData.ts. -/
inductive TrafficLevel where
  | Low
  | Medium
  | High
deriving DecidableEq, Repr

/-- `trafficMultipliers` table from src/utils/sampleData.ts:
Low = 0.8, Medium = 1.0, High = 1.5. -/
def trafficMultipliers : TrafficLevel → ℚ
  | .Low => 4 / 5
  | .Medium => 1
  | .High => 3 / 2

/-- The `distances` record: node id to JS number (possibly `Infinity`). -/
abbrev DistMap := String → WithTop ℚ

/-- The `previous` record: node id to predecessor node id or `null`. -/
abbrev PrevMap := String → Option String

/-- `graph.nodes.map(node => node.id)` at the top of `dijkstra`. -/
def graphNodeIds (g : Graph) : List String := g.nodes.map (·.id)

/-- One insertion into a JS `Set` (insertion order kept, duplicates ignored). -/
def insertUnique (s : List String) (n : String) : List String :=
  if n ∈ s then s else s ++ [n]

/-- `new Set(nodes)` — the `unvisited` set, as an insertion-ordered list. -/
def mkNodeSet (ids : List String) : List String := ids.foldl insertUnique []

/-- The initialization loop of `dijkstra`:
`distances[node] = node === sourceId ? 0 : Infinity`. -/
def initDistances (ids : List String) (sourceId : String) : DistMap :=
  ids.foldl
    (fun d n => Function.update d n (if n = sourceId then (0 : WithTop ℚ) else ⊤))
    (fun _ => ⊤)

/-- The initialization loop of `dijkstra`: `previous[node] = null`. -/
def initPrevious (ids : List String) : PrevMap :=
  ids.foldl (fun p n => Function.update p n none) (fun _ => none)

/-- One step of the minimum scan
`if (distances[node] < minDistance) { minDistance = ...; currentNode = node }`. -/
def findMinStep (d : DistMap) (acc : Option String × WithTop ℚ) (n : String) :
    Option String × WithTop ℚ :=
  if d n < acc.2 then (some n, d n) else acc

/-- The linear scan for the unvisited node of minimum current distance,
starting from `currentNode = null`, `minDistance = Infinity`. -/
def findMinNode (unvisited : List String) (d : DistMap) : Option String × WithTop ℚ :=
  unvisited.foldl (findMinStep d) (none, ⊤)

/-- The body of `for (const edge of edges)` inside the main `dijkstra` loop:
relax one edge incident to `currentNode` toward its unvisited endpoint. -/
def relaxEdge (m : ℚ) (currentNode : String) (unvisited : List String)
    (dp : DistMap × PrevMap) (edge : Edge) : DistMap × PrevMap :=
  if edge.source = currentNode ∨ edge.target = currentNode then
    let neighbor := if edge.source = currentNode then edge.target else edge.source
    if neighbor ∈ unvisited then
      let adjustedWeight := edge.weight * m
      let tentativeDistance := dp.1 currentNode + (adjustedWeight : WithTop ℚ)
      if tentativeDistance < dp.1 neighbor then
        (Function.update dp.1 neighbor tentativeDistance,
         Function.update dp.2 neighbor (some currentNode))
      else dp
    else dp
  else dp

/-- `for (const edge of edges) { ... }`: relax every edge of the graph. -/
def relaxAll (edges : List Edge) (m : ℚ) (currentNode : String)
    (unvisited : List String) (dp : DistMap × PrevMap) : DistMap × PrevMap :=
  edges.foldl (relaxEdge m currentNode unvisited) dp

/-- The main `while (unvisited.size > 0)` loop of `dijkstra`, with an explicit
iteration bound (`dijkstraLoop_fuel_sufficient` below shows the bound used by
`dijkstraState` is never exhausted: every iteration either settles exactly one
node or exits the loop). -/
def dijkstraLoop (edges : List Edge) (m : ℚ) :
    Nat → List String → DistMap × PrevMap → DistMap × PrevMap
  | 0, _, dp => dp
  | fuel + 1, unvisited, dp =>
    if unvisited.isEmpty then dp
    else
      match findMinNode unvisited dp.1 with
      | (none, _) => dp
      | (some currentNode, _) =>
        -- `if (currentNode === null || distances[currentNode] === Infinity) break`
        if dp.1 currentNode = ⊤ then dp
        else
          let unvisited' := unvisited.erase currentNode
          let dp' := relaxAll edges m currentNode unvisited' dp
          dijkstraLoop edges m fuel unvisited' dp'

/-- The `while (current !== null) { path.unshift(current); current = previous[current] }`
walk of the path-reconstruction phase, with an explicit step bound (the
termination theorem below shows predecessor chains are acyclic, so the bound
used by `dijkstraMult` is never exhausted). -/
def walkPrev (p : PrevMap) : Nat → String → List String
  | 0, _ => []
  | fuel + 1, current =>
    match p current with
    | none => [current]
    | some prev => walkPrev p fuel prev ++ [current]

/-- The state `(distances, previous)` of `dijkstra` after its main loop. -/
def dijkstraState (g : Graph) (sourceId : String) (m : ℚ) : DistMap × PrevMap :=
  let ids := graphNodeIds g
  let unvisited := mkNodeSet ids
  dijkstraLoop g.edges m unvisited.length unvisited
    (initDistances ids sourceId, initPrevious ids)

/-- `dijkstra`, parametrized by the already-resolved traffic multiplier
(the source computes `trafficMultiplier = trafficMultipliers[trafficLevel]`
once and only ever uses the multiplier afterwards). Returns the
`(distances, paths)` record pair. -/
def dijkstraMult (g : Graph) (sourceId : String) (m : ℚ) :
    DistMap × (String → List String) :=
  let dp := dijkstraState g sourceId m
  let paths : String → List String := fun node =>
    if node = sourceId then [node]
    else if dp.2 node = none ∨ dp.1 node = ⊤ then []
    else walkPrev dp.2 g.nodes.length node
  (dp.1, paths)

/-- `dijkstra(graph, sourceId, trafficLevel)` from the pathfinding module. -/
def dijkstra (g : Graph) (sourceId : String) (trafficLevel : TrafficLevel) :
    DistMap × (String → List String) :=
  dijkstraMult g sourceId (trafficMultipliers trafficLevel)

/-! ### The edge annotator `getColoredEdges` -/

/-- `ColoredEdge`: an edge plus display color, arrival time (a JS number:
`-1` sentinel, a finite time, or `Infinity`), and the on-path flag. -/
structure ColoredEdge where
  source : String
  target : String
  weight : ℚ
  color : String
  arrivalTime : WithTop ℚ
  isOnPath : Bool
deriving DecidableEq, Repr

/-- The string key `` `${a}-${b}` `` used for edge lookup sets. -/
def edgeKey (a b : String) : String := a ++ "-" ++ b

/-- The loop marking each consecutive segment of the highlighted path,
adding both orientations of every segment key. -/
def pathSegmentKeys : List String → List String
  | a :: b :: rest => edgeKey a b :: edgeKey b a :: pathSegmentKeys (b :: rest)
  | _ => []

/-- JS `x || Infinity`: `0` (and a missing key) is falsy and becomes
`Infinity`; every other number is returned unchanged. -/
def jsOrInfinity (d : WithTop ℚ) : WithTop ℚ := if d = 0 then ⊤ else d

/-- `if (typeof arrivalTime === 'number' && arrivalTime !== Infinity)
color = getColorForTime(arrivalTime)`: the guard excludes exactly the
non-finite values of the embedded arrival time. -/
def applyColorForTime (f : ℚ → String) (t : WithTop ℚ) (c : String) : String :=
  if h : t = ⊤ then c else f (t.untop h)

/-- Truthiness of the nullable `destinationId` string: `null` and the empty
string are falsy. -/
def destIsTruthy : Option String → Prop
  | some d => d ≠ ""
  | none => False

instance : (o : Option String) → Decidable (destIsTruthy o)
  | some d => inferInstanceAs (Decidable (d ≠ ""))
  | none => inferInstanceAs (Decidable False)

/-- `getColoredEdges(graph, sourceId, trafficLevel, getColorForTime,
destinationId)` from the pathfinding module. The unreached `try`/`catch` is
not represented: every operation in the `try` block is total here. -/
def getColoredEdges (graph : Graph) (sourceId : String)
    (trafficLevel : TrafficLevel) (getColorForTime : ℚ → String)
    (destinationId : Option String) : List ColoredEdge :=
  -- `if (!graph || !graph.nodes || !graph.edges || !sourceId)`: for a typed
  -- Graph value only the `!sourceId` disjunct can hold (empty string).
  if sourceId = "" then []
  else if ¬ graph.nodes.any (fun node => node.id = sourceId) then []
  else
    -- `if (destinationId && !graph.nodes.some(...)) destinationId = null`
    let destinationId :=
      if destIsTruthy destinationId ∧
          ¬ graph.nodes.any (fun node => some node.id = destinationId) then none
      else destinationId
    let dp := dijkstra graph sourceId trafficLevel
    let distances := dp.1
    let paths := dp.2
    -- `if (destinationId && paths[destinationId]?.length > 1)`
    let pathEdges : List String :=
      match destinationId with
      | some d => if d ≠ "" ∧ (paths d).length > 1 then pathSegmentKeys (paths d) else []
      | none => []
    graph.edges.map (fun edge =>
      let isOnPath :=
        edgeKey edge.source edge.target ∈ pathEdges ∨
          edgeKey edge.target edge.source ∈ pathEdges
      let timeColor : WithTop ℚ × String :=
        if isOnPath ∧ destIsTruthy destinationId then
          let sourceDistance := jsOrInfinity (distances edge.source)
          let targetDistance := jsOrInfinity (distances edge.target)
          let farther :=
            if sourceDistance > targetDistance then edge.source else edge.target
          let arrivalTime := distances farther
          (arrivalTime, applyColorForTime getColorForTime arrivalTime "#d1d5db")
        else if edge.source = sourceId ∨ edge.target = sourceId then
          let neighbor := if edge.source = sourceId then edge.target else edge.source
          let arrivalTime := distances neighbor
          (arrivalTime, applyColorForTime getColorForTime arrivalTime "#d1d5db")
        else (((-1 : ℚ) : WithTop ℚ), "#d1d5db")
      { source := edge.source
        target := edge.target
        weight := edge.weight
        color := if isOnPath then timeColor.2 else "#d1d5db"
        arrivalTime := if isOnPath then timeColor.1 else ((-1 : ℚ) : WithTop ℚ)
        isOnPath := decide isOnPath })

/-! ### The sample color policy (src/utils/sampleData.ts) -/

/-- A `timeBuckets` entry. -/
structure TimeBucket where
  max : WithTop ℚ
  color : String

/-- `timeBuckets` from src/utils/sampleData.ts (the last bucket's bound is
`Infinity`). -/
def timeBuckets : List TimeBucket :=
  [⟨5, "#4ade80"⟩, ⟨10, "#facc15"⟩, ⟨15, "#fb923c"⟩, ⟨⊤, "#ef4444"⟩]

/-- `getColorForTime` from src/utils/sampleData.ts: the first bucket whose
bound is not exceeded; the last bucket's color as fallback. -/
def getColorForTime (time : ℚ) : String :=
  match timeBuckets.find? (fun b => (time : WithTop ℚ) ≤ b.max) with
  | some b => b.color
  | none => "#ef4444"

/-! ### Specification-side notions: walks, costs, reachability, validity -/

/-- The edge `e` joins `a` to `b` in one step (the graph is undirected, so
either stored orientation qualifies). -/
def stepOk (e : Edge) (a b : String) : Prop :=
  (e.source = a ∧ e.target = b) ∨ (e.target = a ∧ e.source = b)

instance (e : Edge) (a b : String) : Decidable (stepOk e a b) := by
  unfold stepOk; infer_instance

/-- `StepsAlong edges ns es`: the node sequence `ns` is traversed by the edge
sequence `es`, each step using an edge of `edges` in either orientation. -/
def StepsAlong (edges : List Edge) : List String → List Edge → Prop
  | [_], [] => True
  | a :: b :: rest, e :: es => e ∈ edges ∧ stepOk e a b ∧ StepsAlong edges (b :: rest) es
  | _, _ => False

instance instStepsAlongDecidable (edges : List Edge) :
    (ns : List String) → (es : List Edge) → Decidable (StepsAlong edges ns es)
  | [_], [] => isTrue trivial
  | a :: b :: rest, e :: es =>
    have : Decidable (StepsAlong edges (b :: rest) es) :=
      instStepsAlongDecidable edges (b :: rest) es
    inferInstanceAs
      (Decidable (e ∈ edges ∧ stepOk e a b ∧ StepsAlong edges (b :: rest) es))
  | [], [] => isFalse fun h => h
  | [], _ :: _ => isFalse fun h => h
  | [_], _ :: _ => isFalse fun h => h
  | _ :: _ :: _, [] => isFalse fun h => h

/-- A walk from `a` to `b`: node sequence `ns` traversed by edges `es`. -/
def IsWalkFrom (edges : List Edge) (a b : String) (ns : List String)
    (es : List Edge) : Prop :=
  ns.head? = some a ∧ ns.getLast? = some b ∧ StepsAlong edges ns es

instance (edges : List Edge) (a b : String) (ns : List String) (es : List Edge) :
    Decidable (IsWalkFrom edges a b ns es) := by
  unfold IsWalkFrom; infer_instance

/-- Total traffic-adjusted cost of an edge sequence: the sum of
base weight × multiplier over its steps. -/
def walkCost (m : ℚ) (es : List Edge) : ℚ := (es.map (fun e => e.weight * m)).sum

/-- `b` is reachable from `a` along the (undirected) edges. -/
def Reachable (edges : List Edge) (a b : String) : Prop :=
  ∃ ns es, IsWalkFrom edges a b ns es

/-- The graph validity assumptions of the specification: non-negative base
weights and edge endpoints referencing existing node ids. -/
def ValidGraph (g : Graph) : Prop :=
  ∀ e ∈ g.edges, 0 ≤ e.weight ∧ e.source ∈ graphNodeIds g ∧ e.target ∈ graphNodeIds g

instance (g : Graph) : Decidable (ValidGraph g) := by
  unfold ValidGraph
  infer_instance

/-- The set of traffic-adjusted costs of all walks from `a` to `b`. -/
def walkCostSet (edges : List Edge) (m : ℚ) (a b : String) : Set ℚ :=
  {c : ℚ | ∃ ns es, IsWalkFrom edges a b ns es ∧ walkCost m es = c}

/-- Pointwise scaling of a possibly-infinite distance value, used to compare
runs of `dijkstra` under proportional traffic multipliers. -/
def scaleD (c : ℚ) : WithTop ℚ → WithTop ℚ := WithTop.map (fun q => c * q)

/-! ### Loop invariants for `dijkstra`'s main loop -/

/-- Structural invariant of the main loop, after the source has been settled.
`u` is the current unvisited list, `d`/`p` the distance and predecessor maps,
`N` a bound on the size of the initial unvisited set. It records that the
predecessor links always point to settled nodes, carry the exact relaxation
equation that produced the neighbor's distance, and are ranked acyclically. -/
structure BasicInv (edges : List Edge) (ids : List String) (N : ℕ)
    (source : String) (m : ℚ) (u : List String) (d : DistMap) (p : PrevMap) :
    Prop where
  uSub : ∀ x ∈ u, x ∈ ids
  uNodup : u.Nodup
  uLen : u.length ≤ N
  srcOut : source ∉ u
  dSource : d source = 0
  pSource : p source = none
  pNone : ∀ n, p n = none → d n = ⊤ ∨ n = source
  pLink : ∀ n v, p n = some v → v ∉ u ∧
    ∃ e ∈ edges, stepOk e v n ∧ d n = d v + ((e.weight * m : ℚ) : WithTop ℚ)
  rank : ∃ r : String → ℕ,
    (∀ n v, p n = some v → r v < r n) ∧
    (∀ n, n ∉ u → p n ≠ none → r n + u.length + 1 ≤ N) ∧
    (∀ n, n ∈ u → p n ≠ none → r n + u.length ≤ N) ∧
    (∀ n, p n = none → r n = 0)

/-- Optimality invariant of the main loop: settled distances never exceed
unsettled ones, and every edge out of a settled node has been relaxed. -/
structure OptInv (edges : List Edge) (ids : List String) (m : ℚ)
    (u : List String) (d : DistMap) : Prop where
  mono : ∀ v ∈ ids, v ∉ u → ∀ n ∈ u, d v ≤ d n
  edgeRel : ∀ v, v ∉ u → ∀ e ∈ edges, ∀ t, stepOk e v t →
    d t ≤ d v + ((e.weight * m : ℚ) : WithTop ℚ)

/-! ## Theorems -/

/-- Auxiliary: a source id that is non-empty and names an existing node passes
both input guards of `getColoredEdges`, and then the function is exactly a map
over `graph.edges`. -/
theorem getColoredEdges_length (graph : Graph) (sourceId : String)
    (trafficLevel : TrafficLevel) (f : ℚ → String) (destinationId : Option String)
    (hne : sourceId ≠ "") (hmem : ∃ nd ∈ graph.nodes, nd.id = sourceId) :
    (getColoredEdges graph sourceId trafficLevel f destinationId).length =
      graph.edges.length := by
  unfold getColoredEdges
  rw [if_neg hne, if_neg]
  · exact List.length_map _ _
  · simp only [List.any_eq_true, decide_eq_true_iff, not_not]
    obtain ⟨nd, hnd, hid⟩ := hmem
    exact ⟨nd, hnd, hid⟩

/-- Auxiliary: with the guards passed, every output edge copies the identity
fields of its input edge, in order. -/
theorem getColoredEdges_fields (graph : Graph) (sourceId : String)
    (trafficLevel : TrafficLevel) (f : ℚ → String) (destinationId : Option String)
    (hne : sourceId ≠ "") (hmem : ∃ nd ∈ graph.nodes, nd.id = sourceId) :
    (getColoredEdges graph sourceId trafficLevel f destinationId).map
        (fun c => (c.source, c.target, c.weight)) =
      graph.edges.map (fun e => (e.source, e.target, e.weight)) := by
  unfold getColoredEdges
  rw [if_neg hne, if_neg]
  · rw [List.map_map]
    rfl
  · simp only [List.any_eq_true, decide_eq_true_iff, not_not]
    obtain ⟨nd, hnd, hid⟩ := hmem
    exact ⟨nd, hnd, hid⟩

/-- **C5** (amended). For every graph, non-empty `sourceId` naming a node of
the graph, traffic level, color function and destination choice,
`getColoredEdges` returns exactly one element per input edge, in input order,
and each output's `source`, `target` and `weight` equal those of its
corresponding input edge. -/
theorem c5_annotate_preserves_edges (graph : Graph) (sourceId : String)
    (trafficLevel : TrafficLevel) (f : ℚ → String) (destinationId : Option String)
    (hne : sourceId ≠ "") (hmem : ∃ nd ∈ graph.nodes, nd.id = sourceId) :
    (getColoredEdges graph sourceId trafficLevel f destinationId).length =
        graph.edges.length ∧
      ∀ i (hi : i < (getColoredEdges graph sourceId trafficLevel f destinationId).length)
        (hi' : i < graph.edges.length),
        ((getColoredEdges graph sourceId trafficLevel f destinationId).get ⟨i, hi⟩).source =
            (graph.edges.get ⟨i, hi'⟩).source ∧
          ((getColoredEdges graph sourceId trafficLevel f destinationId).get ⟨i, hi⟩).target =
            (graph.edges.get ⟨i, hi'⟩).target ∧
          ((getColoredEdges graph sourceId trafficLevel f destinationId).get ⟨i, hi⟩).weight =
            (graph.edges.get ⟨i, hi'⟩).weight := by
  refine ⟨getColoredEdges_length graph sourceId trafficLevel f destinationId hne hmem, ?_⟩
  intro i hi hi'
  have hmap := getColoredEdges_fields graph sourceId trafficLevel f destinationId hne hmem
  have := congrArg (fun l => l.get? i) hmap
  simp only [List.get?_eq_getElem?, List.getElem?_map] at this
  rw [List.getElem?_eq_getElem hi', List.getElem?_eq_getElem
    (by simpa using hi)] at this
  simp only [Option.map_some, Option.some.injEq, Prod.mk.injEq] at this
  simpa [List.get_eq_getElem] using this

/-- **C5** fails as frozen: with a node whose id is the empty string, the
empty-string `sourceId` is "present in the graph", yet the JS truthiness
guard `!sourceId` rejects it and `getColoredEdges` returns the empty list
instead of one output per input edge. -/
theorem c5_counterexample :
    (∃ nd ∈ (Graph.mk [⟨"", "", 0, 0⟩] [⟨"", "", 1⟩]).nodes, nd.id = "") ∧
      (getColoredEdges (Graph.mk [⟨"", "", 0, 0⟩] [⟨"", "", 1⟩]) "" .Medium
          (fun _ => "c") none).length ≠
        (Graph.mk [⟨"", "", 0, 0⟩] [⟨"", "", 1⟩]).edges.length := by
  with_unfolding_all decide

/-- Witness for `c5_annotate_preserves_edges` at a concrete input. -/
theorem c5_witness :
    (getColoredEdges (Graph.mk [⟨"A", "A", 0, 0⟩, ⟨"B", "B", 0, 0⟩] [⟨"A", "B", 8⟩])
          "A" .Medium getColorForTime none).length =
        (Graph.mk [⟨"A", "A", 0, 0⟩, ⟨"B", "B", 0, 0⟩] [⟨"A", "B", 8⟩]).edges.length ∧
      ∀ i (hi : i < (getColoredEdges
            (Graph.mk [⟨"A", "A", 0, 0⟩, ⟨"B", "B", 0, 0⟩] [⟨"A", "B", 8⟩])
            "A" .Medium getColorForTime none).length)
        (hi' : i < (Graph.mk [⟨"A", "A", 0, 0⟩, ⟨"B", "B", 0, 0⟩]
            [⟨"A", "B", 8⟩]).edges.length),
        ((getColoredEdges (Graph.mk [⟨"A", "A", 0, 0⟩, ⟨"B", "B", 0, 0⟩] [⟨"A", "B", 8⟩])
              "A" .Medium getColorForTime none).get ⟨i, hi⟩).source =
            (((Graph.mk [⟨"A", "A", 0, 0⟩, ⟨"B", "B", 0, 0⟩]
              [⟨"A", "B", 8⟩]).edges).get ⟨i, hi'⟩).source ∧
          ((getColoredEdges (Graph.mk [⟨"A", "A", 0, 0⟩, ⟨"B", "B", 0, 0⟩] [⟨"A", "B", 8⟩])
              "A" .Medium getColorForTime none).get ⟨i, hi⟩).target =
            (((Graph.mk [⟨"A", "A", 0, 0⟩, ⟨"B", "B", 0, 0⟩]
              [⟨"A", "B", 8⟩]).edges).get ⟨i, hi'⟩).target ∧
          ((getColoredEdges (Graph.mk [⟨"A", "A", 0, 0⟩, ⟨"B", "B", 0, 0⟩] [⟨"A", "B", 8⟩])
              "A" .Medium getColorForTime none).get ⟨i, hi⟩).weight =
            (((Graph.mk [⟨"A", "A", 0, 0⟩, ⟨"B", "B", 0, 0⟩]
              [⟨"A", "B", 8⟩]).edges).get ⟨i, hi'⟩).weight :=
  c5_annotate_preserves_edges
    (Graph.mk [⟨"A", "A", 0, 0⟩, ⟨"B", "B", 0, 0⟩] [⟨"A", "B", 8⟩]) "A" .Medium
    getColorForTime none (by decide) ⟨⟨"A", "A", 0, 0⟩, by decide, rfl⟩

/-- **C6**. For every graph, traffic level, color function and destination
choice: a `sourceId` that names no node of the graph makes `getColoredEdges`
return the empty list (it is a total function of its inputs, so no exception
is possible), and a supplied `destinationId` that names no node of the graph
is treated exactly as if no destination had been supplied. -/
theorem c6_missing_source_and_destination (graph : Graph) (sourceId : String)
    (trafficLevel : TrafficLevel) (f : ℚ → String) :
    (∀ destinationId, ¬ (∃ nd ∈ graph.nodes, nd.id = sourceId) →
        getColoredEdges graph sourceId trafficLevel f destinationId = []) ∧
      (∀ d, ¬ (∃ nd ∈ graph.nodes, nd.id = d) →
        getColoredEdges graph sourceId trafficLevel f (some d) =
          getColoredEdges graph sourceId trafficLevel f none) := by
  have habsent : ∀ destinationId, ¬ (∃ nd ∈ graph.nodes, nd.id = sourceId) →
      getColoredEdges graph sourceId trafficLevel f destinationId = [] := by
    intro dst habs
    unfold getColoredEdges
    by_cases hs : sourceId = ""
    · rw [if_pos hs]
    · rw [if_neg hs, if_pos]
      simp only [List.any_eq_true, decide_eq_true_iff]
      exact habs
  refine ⟨habsent, ?_⟩
  intro d habs
  by_cases hp : ∃ nd ∈ graph.nodes, nd.id = sourceId
  · by_cases hs : sourceId = ""
    · unfold getColoredEdges
      rw [if_pos hs, if_pos hs]
    · have hanyt : graph.nodes.any (fun node => node.id = sourceId) = true := by
        simp only [List.any_eq_true, decide_eq_true_iff]
        exact hp
      unfold getColoredEdges
      rw [if_neg hs, if_neg hs, if_neg (not_not_intro hanyt),
        if_neg (not_not_intro hanyt)]
      by_cases hd : d = ""
      · subst hd
        have h1 : ¬ (destIsTruthy (some "") ∧
            ¬ graph.nodes.any (fun node => some node.id = some "")) :=
          fun h => h.1 rfl
        have h2 : ¬ (destIsTruthy (none : Option String) ∧
            ¬ graph.nodes.any (fun node => some node.id = none)) :=
          fun h => h.1
        rw [if_neg h1, if_neg h2]
        simp [destIsTruthy]
      · have hanyd : ¬ graph.nodes.any (fun node => some node.id = some d) = true := by
          simp only [List.any_eq_true, decide_eq_true_iff, Option.some.injEq]
          exact habs
        rw [if_pos ⟨hd, hanyd⟩,
          if_neg (fun h : destIsTruthy (none : Option String) ∧ _ => h.1)]
  · rw [habsent _ hp, habsent _ hp]

/-- Witness for `c6_missing_source_and_destination` at concrete inputs. -/
theorem c6_witness :
    getColoredEdges (Graph.mk [⟨"A", "A", 0, 0⟩] []) "X" .Medium getColorForTime
        none = [] ∧
      getColoredEdges (Graph.mk [⟨"A", "A", 0, 0⟩] []) "A" .Medium getColorForTime
          (some "Z") =
        getColoredEdges (Graph.mk [⟨"A", "A", 0, 0⟩] []) "A" .Medium getColorForTime
          none :=
  ⟨(c6_missing_source_and_destination (Graph.mk [⟨"A", "A", 0, 0⟩] []) "X" .Medium
      getColorForTime).1 none (by decide),
   (c6_missing_source_and_destination (Graph.mk [⟨"A", "A", 0, 0⟩] []) "A" .Medium
      getColorForTime).2 "Z" (by decide)⟩

/-- **C3** fails on the code: for the edge A–B of weight 8 with source A and
no destination, the distance to the other endpoint B is 8 and
`getColorForTime 8` is the yellow token, yet the emitted edge carries the
`-1` sentinel and the neutral color `#d1d5db` — the values computed in the
incident-to-source branch are discarded by the final
`isOnPath ? arrivalTime : -1` / `isOnPath ? color : "#d1d5db"` selectors. -/
theorem c3_source_incident_edge_gets_sentinel :
    (dijkstra (Graph.mk [⟨"A", "A", 0, 0⟩, ⟨"B", "B", 0, 0⟩] [⟨"A", "B", 8⟩])
        "A" .Medium).1 "B" = ((8 : ℚ) : WithTop ℚ) ∧
      getColorForTime 8 = "#facc15" ∧
      getColoredEdges (Graph.mk [⟨"A", "A", 0, 0⟩, ⟨"B", "B", 0, 0⟩] [⟨"A", "B", 8⟩])
          "A" .Medium getColorForTime none =
        [⟨"A", "B", 8, "#d1d5db", ((-1 : ℚ) : WithTop ℚ), false⟩] := by
  with_unfolding_all decide

/-- **C4** fails on the code: in the specification's own concrete scenario
(A–B–C with weights 5 and 5, source A, destination C, Medium traffic), the
highlighted edge A–B is emitted with arrival time 0 — the distance of its
*nearer* endpoint A — because `distances[edge.source] || Infinity` turns the
falsy distance 0 of the source node into `Infinity`, making A the "farther"
endpoint. The claim (and the spec's scenario) requires arrival time 5. The
second highlighted edge B–C, whose endpoints both have non-zero distances,
gets the claimed value 10. -/
theorem c4_on_path_arrival_uses_falsy_zero :
    (dijkstra (Graph.mk [⟨"A", "A", 0, 0⟩, ⟨"B", "B", 0, 0⟩, ⟨"C", "C", 0, 0⟩]
        [⟨"A", "B", 5⟩, ⟨"B", "C", 5⟩]) "A" .Medium).1 "A" = ((0 : ℚ) : WithTop ℚ) ∧
      (dijkstra (Graph.mk [⟨"A", "A", 0, 0⟩, ⟨"B", "B", 0, 0⟩, ⟨"C", "C", 0, 0⟩]
          [⟨"A", "B", 5⟩, ⟨"B", "C", 5⟩]) "A" .Medium).1 "B" = ((5 : ℚ) : WithTop ℚ) ∧
      getColoredEdges (Graph.mk [⟨"A", "A", 0, 0⟩, ⟨"B", "B", 0, 0⟩, ⟨"C", "C", 0, 0⟩]
          [⟨"A", "B", 5⟩, ⟨"B", "C", 5⟩]) "A" .Medium getColorForTime (some "C") =
        [⟨"A", "B", 5, "#4ade80", ((0 : ℚ) : WithTop ℚ), true⟩,
         ⟨"B", "C", 5, "#facc15", ((10 : ℚ) : WithTop ℚ), true⟩] := by
  with_unfolding_all decide

/-! ### Basic lemmas about the embedded data structures -/

theorem mem_insertUnique {s : List String} {n x : String} :
    x ∈ insertUnique s n ↔ x ∈ s ∨ x = n := by
  unfold insertUnique
  split_ifs with h
  · exact ⟨Or.inl, fun hx => hx.elim id (fun hxn => hxn ▸ h)⟩
  · simp [List.mem_append]

theorem nodup_insertUnique {s : List String} (h : s.Nodup) (n : String) :
    (insertUnique s n).Nodup := by
  unfold insertUnique
  split_ifs with hn
  · exact h
  · simp only [List.nodup_append, List.nodup_cons, List.not_mem_nil,
      not_false_eq_true, List.nodup_nil, and_true, true_and]
    exact ⟨h, fun x hx hx' => hn ((List.mem_singleton.mp hx') ▸ hx)⟩

theorem mkNodeSet_fold_spec (ids : List String) : ∀ acc : List String, acc.Nodup →
    (ids.foldl insertUnique acc).Nodup ∧
      ∀ x, x ∈ ids.foldl insertUnique acc ↔ x ∈ acc ∨ x ∈ ids := by
  induction ids with
  | nil => exact fun acc h => ⟨h, fun x => by simp⟩
  | cons i ids ih =>
    intro acc h
    obtain ⟨h1, h2⟩ := ih (insertUnique acc i) (nodup_insertUnique h i)
    refine ⟨h1, fun x => ?_⟩
    rw [List.foldl_cons, h2 x, mem_insertUnique]
    simp only [List.mem_cons]
    tauto

theorem mkNodeSet_nodup (ids : List String) : (mkNodeSet ids).Nodup :=
  (mkNodeSet_fold_spec ids [] List.nodup_nil).1

theorem mem_mkNodeSet {ids : List String} {x : String} :
    x ∈ mkNodeSet ids ↔ x ∈ ids := by
  rw [mkNodeSet, (mkNodeSet_fold_spec ids [] List.nodup_nil).2 x]
  simp

theorem mkNodeSet_fold_length (ids : List String) : ∀ acc : List String,
    (ids.foldl insertUnique acc).length ≤ acc.length + ids.length := by
  induction ids with
  | nil => simp
  | cons i ids ih =>
    intro acc
    refine le_trans (ih (insertUnique acc i)) ?_
    have : (insertUnique acc i).length ≤ acc.length + 1 := by
      unfold insertUnique
      split_ifs
      · exact Nat.le_succ _
      · simp
    simpa [Nat.add_comm, Nat.add_left_comm] using Nat.add_le_add_right this ids.length

theorem mkNodeSet_length_le (ids : List String) :
    (mkNodeSet ids).length ≤ ids.length := by
  simpa using mkNodeSet_fold_length ids []

theorem initDistances_apply (ids : List String) (s n : String) :
    initDistances ids s n =
      if n ∈ ids then (if n = s then (0 : WithTop ℚ) else ⊤) else ⊤ := by
  have main : ∀ (l : List String) (f : DistMap),
      (l.foldl (fun d i =>
          Function.update d i (if i = s then (0 : WithTop ℚ) else ⊤)) f) n =
        if n ∈ l then (if n = s then (0 : WithTop ℚ) else ⊤) else f n := by
    intro l
    induction l with
    | nil => simp
    | cons i l ih =>
      intro f
      rw [List.foldl_cons, ih]
      by_cases hl : n ∈ l
      · simp [hl]
      · by_cases hi : n = i
        · subst hi
          simp [hl, Function.update_apply]
        · simp [hl, hi, Function.update_apply]
  have := main ids (fun _ => ⊤)
  simpa [initDistances] using this

theorem initPrevious_apply (ids : List String) (n : String) :
    initPrevious ids n = none := by
  have main : ∀ (l : List String) (f : PrevMap), (∀ x, f x = none) →
      (l.foldl (fun p i => Function.update p i none) f) n = none := by
    intro l
    induction l with
    | nil => exact fun f hf => hf n
    | cons i l ih =>
      intro f hf
      rw [List.foldl_cons]
      exact ih _ (fun x => by
        by_cases hx : x = i
        · subst hx; simp
        · simp [Function.update_apply, hx, hf x])
  exact main ids _ (fun _ => rfl)

/-! ### The minimum scan -/

theorem findMin_fold_spec (d : DistMap) : ∀ (u : List String)
    (acc : Option String × WithTop ℚ),
    (u.foldl (findMinStep d) acc = acc ∨
      ∃ c, (u.foldl (findMinStep d) acc).1 = some c ∧ c ∈ u ∧
        (u.foldl (findMinStep d) acc).2 = d c ∧
        (u.foldl (findMinStep d) acc).2 < acc.2) ∧
    (u.foldl (findMinStep d) acc).2 ≤ acc.2 ∧
    ∀ n ∈ u, (u.foldl (findMinStep d) acc).2 ≤ d n := by
  intro u
  induction u with
  | nil => exact fun acc => ⟨Or.inl rfl, le_rfl, by simp⟩
  | cons n u ih =>
    intro acc
    rw [List.foldl_cons]
    by_cases h : d n < acc.2
    · have hstep : findMinStep d acc n = (some n, d n) := by
        unfold findMinStep; rw [if_pos h]
      rw [hstep]
      obtain ⟨h1, h2, h3⟩ := ih (some n, d n)
      refine ⟨?_, le_of_lt (lt_of_le_of_lt h2 h), fun x hx => ?_⟩
      · rcases h1 with heq | ⟨c, hc1, hc2, hc3, hc4⟩
        · exact Or.inr ⟨n, by rw [heq], List.mem_cons_self _ _, by rw [heq], by rw [heq]; exact h⟩
        · exact Or.inr ⟨c, hc1, List.mem_cons_of_mem _ hc2, hc3, lt_trans hc4 h⟩
      · rcases List.mem_cons.mp hx with rfl | hx
        · exact h2
        · exact h3 x hx
    · have hstep : findMinStep d acc n = acc := by
        unfold findMinStep; rw [if_neg h]
      rw [hstep]
      obtain ⟨h1, h2, h3⟩ := ih acc
      refine ⟨?_, h2, fun x hx => ?_⟩
      · rcases h1 with heq | ⟨c, hc1, hc2, hc3, hc4⟩
        · exact Or.inl heq
        · exact Or.inr ⟨c, hc1, List.mem_cons_of_mem _ hc2, hc3, hc4⟩
      · rcases List.mem_cons.mp hx with rfl | hx
        · exact le_trans h2 (le_of_not_lt h)
        · exact h3 x hx

theorem findMinNode_eq_none {u : List String} {d : DistMap} {v : WithTop ℚ}
    (h : findMinNode u d = (none, v)) : ∀ n ∈ u, d n = ⊤ := by
  obtain ⟨h1, _, h3⟩ := findMin_fold_spec d u (none, ⊤)
  rcases h1 with heq | ⟨c, hc1, _⟩
  · intro n hn
    have := h3 n hn
    rw [heq] at this
    exact top_le_iff.mp this
  · rw [findMinNode] at h
    rw [h] at hc1
    exact absurd hc1 (by simp)

theorem findMinNode_eq_some {u : List String} {d : DistMap} {c : String}
    {v : WithTop ℚ} (h : findMinNode u d = (some c, v)) :
    c ∈ u ∧ v = d c ∧ d c ≠ ⊤ ∧ ∀ n ∈ u, d c ≤ d n := by
  obtain ⟨h1, _, h3⟩ := findMin_fold_spec d u (none, ⊤)
  rw [findMinNode] at h
  rcases h1 with heq | ⟨c', hc1, hc2, hc3, hc4⟩
  · rw [h] at heq
    exact absurd (congrArg Prod.fst heq) (by simp)
  · rw [h] at hc1 hc3 hc4
    obtain rfl : c = c' := by simpa using hc1
    have hv : v = d c := hc3
    have hvtop : v < ⊤ := hc4
    refine ⟨hc2, hv, ?_, fun n hn => ?_⟩
    · rw [← hv]
      exact hvtop.ne
    · have := h3 n hn
      rw [h] at this
      rw [← hv]
      exact this

/-! ### Fuel sufficiency for the main loop -/

theorem dijkstraLoop_fuel_eq (edges : List Edge) (m : ℚ) :
    ∀ (fuel : Nat) (u : List String) (dp : DistMap × PrevMap),
      u.length ≤ fuel →
      dijkstraLoop edges m fuel u dp = dijkstraLoop edges m u.length u dp := by
  intro fuel
  induction fuel with
  | zero =>
    intro u dp hu
    have : u = [] := List.length_eq_zero.mp (Nat.le_zero.mp hu)
    subst this
    rfl
  | succ fuel ih =>
    intro u dp hu
    rcases he : u.isEmpty with hfalse | htrue
    · have hne : u ≠ [] := by
        intro h
        rw [h] at he
        simp at he
      obtain ⟨k, hk⟩ : ∃ k, u.length = k + 1 :=
        ⟨u.length - 1, by
          have := List.length_pos.mpr hne
          omega⟩
      rw [hk]
      show dijkstraLoop edges m (fuel + 1) u dp = dijkstraLoop edges m (k + 1) u dp
      unfold dijkstraLoop
      rw [he]
      simp only [Bool.false_eq_true, if_false]
      rcases hfm : findMinNode u dp.1 with ⟨co, v⟩
      cases co with
      | none => rfl
      | some c =>
        show (if dp.1 c = ⊤ then dp
            else dijkstraLoop edges m fuel (u.erase c)
              (relaxAll edges m c (u.erase c) dp)) =
          (if dp.1 c = ⊤ then dp
            else dijkstraLoop edges m k (u.erase c)
              (relaxAll edges m c (u.erase c) dp))
        by_cases hdc : dp.1 c = ⊤
        · rw [if_pos hdc, if_pos hdc]
        · rw [if_neg hdc, if_neg hdc]
          have hc : c ∈ u := (findMinNode_eq_some hfm).1
          have hlen : (u.erase c).length = k := by
            rw [List.length_erase_of_mem hc, hk]
            omega
          have h1 := ih (u.erase c) (relaxAll edges m c (u.erase c) dp)
            (by rw [hlen]; omega)
          rw [h1, hlen]
    · have : u = [] := List.isEmpty_iff.mp he
      subst this
      rfl

/-! ### Characterizing one relaxation pass -/

theorem relaxEdge_reduce_update (m : ℚ) (c : String) (u' : List String)
    (dp : DistMap × PrevMap) (e : Edge)
    (h1 : e.source = c ∨ e.target = c)
    (h2 : (if e.source = c then e.target else e.source) ∈ u')
    (h3 : dp.1 c + ((e.weight * m : ℚ) : WithTop ℚ) <
      dp.1 (if e.source = c then e.target else e.source)) :
    relaxEdge m c u' dp e =
      (Function.update dp.1 (if e.source = c then e.target else e.source)
          (dp.1 c + ((e.weight * m : ℚ) : WithTop ℚ)),
        Function.update dp.2 (if e.source = c then e.target else e.source)
          (some c)) := by
  simp only [relaxEdge]
  rw [if_pos h1, if_pos h2, if_pos h3]

theorem relaxEdge_reduce_id (m : ℚ) (c : String) (u' : List String)
    (dp : DistMap × PrevMap) (e : Edge)
    (h : ¬ (e.source = c ∨ e.target = c) ∨
      (if e.source = c then e.target else e.source) ∉ u' ∨
      ¬ (dp.1 c + ((e.weight * m : ℚ) : WithTop ℚ) <
        dp.1 (if e.source = c then e.target else e.source))) :
    relaxEdge m c u' dp e = dp := by
  simp only [relaxEdge]
  by_cases h1 : e.source = c ∨ e.target = c
  · rw [if_pos h1]
    by_cases h2 : (if e.source = c then e.target else e.source) ∈ u'
    · rw [if_pos h2]
      rcases h with h | h | h
      · exact absurd h1 h
      · exact absurd h2 h
      · rw [if_neg h]
    · rw [if_neg h2]
  · rw [if_neg h1]

theorem relaxEdge_off (m : ℚ) (c : String) (u' : List String)
    (dp : DistMap × PrevMap) (e : Edge) {n : String} (hn : n ∉ u') :
    (relaxEdge m c u' dp e).1 n = dp.1 n ∧ (relaxEdge m c u' dp e).2 n = dp.2 n := by
  by_cases h1 : e.source = c ∨ e.target = c
  · by_cases h2 : (if e.source = c then e.target else e.source) ∈ u'
    · by_cases h3 : dp.1 c + ((e.weight * m : ℚ) : WithTop ℚ) <
          dp.1 (if e.source = c then e.target else e.source)
      · rw [relaxEdge_reduce_update m c u' dp e h1 h2 h3]
        have hne : n ≠ (if e.source = c then e.target else e.source) := by
          intro heq
          rw [heq] at hn
          exact hn h2
        constructor <;> simp [Function.update_apply, hne]
      · rw [relaxEdge_reduce_id m c u' dp e (Or.inr (Or.inr h3))]
        exact ⟨rfl, rfl⟩
    · rw [relaxEdge_reduce_id m c u' dp e (Or.inr (Or.inl h2))]
      exact ⟨rfl, rfl⟩
  · rw [relaxEdge_reduce_id m c u' dp e (Or.inl h1)]
    exact ⟨rfl, rfl⟩

theorem relaxEdge_le (m : ℚ) (c : String) (u' : List String)
    (dp : DistMap × PrevMap) (e : Edge) (n : String) :
    (relaxEdge m c u' dp e).1 n ≤ dp.1 n := by
  by_cases h1 : e.source = c ∨ e.target = c
  · by_cases h2 : (if e.source = c then e.target else e.source) ∈ u'
    · by_cases h3 : dp.1 c + ((e.weight * m : ℚ) : WithTop ℚ) <
          dp.1 (if e.source = c then e.target else e.source)
      · rw [relaxEdge_reduce_update m c u' dp e h1 h2 h3]
        show Function.update dp.1 (if e.source = c then e.target else e.source)
          (dp.1 c + ((e.weight * m : ℚ) : WithTop ℚ)) n ≤ dp.1 n
        by_cases hn : n = (if e.source = c then e.target else e.source)
        · rw [Function.update_apply, if_pos hn, hn]
          exact le_of_lt h3
        · rw [Function.update_apply, if_neg hn]
      · rw [relaxEdge_reduce_id m c u' dp e (Or.inr (Or.inr h3))]
    · rw [relaxEdge_reduce_id m c u' dp e (Or.inr (Or.inl h2))]
  · rw [relaxEdge_reduce_id m c u' dp e (Or.inl h1)]

theorem relaxEdge_char (m : ℚ) (c : String) (u' : List String)
    (dp : DistMap × PrevMap) (e : Edge) (n : String) :
    ((relaxEdge m c u' dp e).1 n = dp.1 n ∧ (relaxEdge m c u' dp e).2 n = dp.2 n) ∨
      (n ∈ u' ∧ stepOk e c n ∧
        (relaxEdge m c u' dp e).1 n = dp.1 c + ((e.weight * m : ℚ) : WithTop ℚ) ∧
        (relaxEdge m c u' dp e).2 n = some c) := by
  by_cases h1 : e.source = c ∨ e.target = c
  · by_cases h2 : (if e.source = c then e.target else e.source) ∈ u'
    · by_cases h3 : dp.1 c + ((e.weight * m : ℚ) : WithTop ℚ) <
          dp.1 (if e.source = c then e.target else e.source)
      · by_cases hn : n = (if e.source = c then e.target else e.source)
        · right
          rw [relaxEdge_reduce_update m c u' dp e h1 h2 h3]
          refine ⟨hn ▸ h2, ?_, by simp [Function.update_apply, hn],
            by simp [Function.update_apply, hn]⟩
          rw [hn]
          by_cases hs : e.source = c
          · rw [if_pos hs]
            exact Or.inl ⟨hs, rfl⟩
          · rw [if_neg hs]
            exact Or.inr ⟨h1.resolve_left hs, rfl⟩
        · left
          rw [relaxEdge_reduce_update m c u' dp e h1 h2 h3]
          constructor <;> simp [Function.update_apply, hn]
      · rw [relaxEdge_reduce_id m c u' dp e (Or.inr (Or.inr h3))]
        exact Or.inl ⟨rfl, rfl⟩
    · rw [relaxEdge_reduce_id m c u' dp e (Or.inr (Or.inl h2))]
      exact Or.inl ⟨rfl, rfl⟩
  · rw [relaxEdge_reduce_id m c u' dp e (Or.inl h1)]
    exact Or.inl ⟨rfl, rfl⟩

theorem relaxEdge_bound (m : ℚ) (c : String) (u' : List String)
    (dp : DistMap × PrevMap) (e : Edge) (hc : c ∉ u') {t : String}
    (hstep : stepOk e c t) (ht : t ∈ u') :
    (relaxEdge m c u' dp e).1 t ≤ dp.1 c + ((e.weight * m : ℚ) : WithTop ℚ) := by
  have h1 : e.source = c ∨ e.target = c := by
    rcases hstep with ⟨hs, _⟩ | ⟨ht', _⟩
    · exact Or.inl hs
    · exact Or.inr ht'
  have hnb : (if e.source = c then e.target else e.source) = t := by
    by_cases hs : e.source = c
    · rw [if_pos hs]
      rcases hstep with ⟨_, ht'⟩ | ⟨ht', hs'⟩
      · exact ht'
      · exact absurd ht (by rw [← hs', hs]; exact hc)
    · rw [if_neg hs]
      rcases hstep with ⟨hs', _⟩ | ⟨_, hs'⟩
      · exact absurd hs' hs
      · exact hs'
  by_cases h3 : dp.1 c + ((e.weight * m : ℚ) : WithTop ℚ) <
      dp.1 (if e.source = c then e.target else e.source)
  · rw [relaxEdge_reduce_update m c u' dp e h1 (hnb ▸ ht) h3, hnb]
    simp [Function.update_apply]
  · rw [relaxEdge_reduce_id m c u' dp e (Or.inr (Or.inr h3))]
    rw [hnb] at h3
    exact le_of_not_lt h3

theorem relaxAll_spec (m : ℚ) (c : String) (u' : List String) (hc : c ∉ u') :
    ∀ (es : List Edge) (dp : DistMap × PrevMap),
    (∀ n, n ∉ u' →
        (relaxAll es m c u' dp).1 n = dp.1 n ∧ (relaxAll es m c u' dp).2 n = dp.2 n) ∧
      (∀ n, (relaxAll es m c u' dp).1 n ≤ dp.1 n) ∧
      (∀ n, ((relaxAll es m c u' dp).1 n = dp.1 n ∧
          (relaxAll es m c u' dp).2 n = dp.2 n) ∨
        (n ∈ u' ∧ ∃ e ∈ es, stepOk e c n ∧
          (relaxAll es m c u' dp).1 n = dp.1 c + ((e.weight * m : ℚ) : WithTop ℚ) ∧
          (relaxAll es m c u' dp).2 n = some c)) ∧
      (∀ e ∈ es, ∀ t, stepOk e c t → t ∈ u' →
        (relaxAll es m c u' dp).1 t ≤ dp.1 c + ((e.weight * m : ℚ) : WithTop ℚ)) := by
  intro es
  induction es with
  | nil =>
    intro dp
    exact ⟨fun n _ => ⟨rfl, rfl⟩, fun n => le_rfl,
      fun n => Or.inl ⟨rfl, rfl⟩, by simp⟩
  | cons e es ih =>
    intro dp
    have hfold : relaxAll (e :: es) m c u' dp =
        relaxAll es m c u' (relaxEdge m c u' dp e) := rfl
    rw [hfold]
    set dp1 := relaxEdge m c u' dp e with hdp1
    obtain ⟨ih1, ih2, ih3, ih4⟩ := ih dp1
    have hcconst : dp1.1 c = dp.1 c := (relaxEdge_off m c u' dp e hc).1
    refine ⟨fun n hn => ?_, fun n => ?_, fun n => ?_, ?_⟩
    · obtain ⟨ha, hb⟩ := ih1 n hn
      obtain ⟨ha', hb'⟩ := relaxEdge_off m c u' dp e hn
      exact ⟨ha.trans ha', hb.trans hb'⟩
    · exact le_trans (ih2 n) (relaxEdge_le m c u' dp e n)
    · rcases ih3 n with ⟨ha, hb⟩ | ⟨hn, e', he', hs', ha', hb'⟩
      · rcases relaxEdge_char m c u' dp e n with ⟨ha2, hb2⟩ | ⟨hn2, hs2, ha2, hb2⟩
        · exact Or.inl ⟨ha.trans ha2, hb.trans hb2⟩
        · exact Or.inr ⟨hn2, e, List.mem_cons_self _ _, hs2,
            ha.trans ha2, hb.trans hb2⟩
      · exact Or.inr ⟨hn, e', List.mem_cons_of_mem _ he', hs',
          by rw [ha', hcconst], hb'⟩
    · intro e' he' t hst ht
      rcases List.mem_cons.mp he' with rfl | he'
      · exact le_trans (ih2 t) (relaxEdge_bound m c u' dp e' hc hst ht)
      · have := ih4 e' he' t hst ht
        rwa [hcconst] at this

/-! ### One settling step preserves the invariants -/

theorem settle_basic {edges : List Edge} {ids : List String} {N : ℕ}
    {source : String} {m : ℚ} {u : List String} {d : DistMap} {p : PrevMap}
    {c : String}
    (hND : u.Nodup) (hSub : ∀ x ∈ u, x ∈ ids) (hlen : u.length ≤ N)
    (hc : c ∈ u)
    (hsrc : source ∉ u.erase c) (hdsrc : d source = 0) (hpsrc : p source = none)
    (hpNone : ∀ n, p n = none → d n = ⊤ ∨ n = source)
    (hpLink : ∀ n v, p n = some v → v ∉ u ∧ ∃ e ∈ edges, stepOk e v n ∧
      d n = d v + ((e.weight * m : ℚ) : WithTop ℚ))
    (hrank : ∃ r : String → ℕ,
      (∀ n v, p n = some v → r v < r n) ∧
      (∀ n, n ∉ u → p n ≠ none → r n + u.length + 1 ≤ N) ∧
      (∀ n, n ∈ u → p n ≠ none → r n + u.length ≤ N) ∧
      (∀ n, p n = none → r n = 0)) :
    BasicInv edges ids N source m (u.erase c)
      (relaxAll edges m c (u.erase c) (d, p)).1
      (relaxAll edges m c (u.erase c) (d, p)).2 := by
  have hcu' : c ∉ u.erase c := fun h => ((hND.mem_erase_iff).mp h).1 rfl
  have herase : ∀ x, x ∈ u.erase c ↔ x ≠ c ∧ x ∈ u := fun x => hND.mem_erase_iff
  have hlen' : (u.erase c).length = u.length - 1 := List.length_erase_of_mem hc
  have hupos : 1 ≤ u.length := List.length_pos.mpr (List.ne_nil_of_mem hc)
  obtain ⟨S1, S2, S3, S4⟩ := relaxAll_spec m c (u.erase c) hcu' edges (d, p)
  have hdc' : (relaxAll edges m c (u.erase c) (d, p)).1 c = d c := (S1 c hcu').1
  constructor
  · exact fun x hx => hSub x (List.mem_of_mem_erase hx)
  · exact hND.erase c
  · rw [hlen']
    omega
  · exact hsrc
  · rw [(S1 source hsrc).1]
    exact hdsrc
  · rw [(S1 source hsrc).2]
    exact hpsrc
  · -- pNone
    intro n hn
    rcases S3 n with ⟨ha, hb⟩ | ⟨_, _, _, _, _, hb⟩
    · rw [ha]
      exact hpNone n (hb.symm.trans hn)
    · rw [hb] at hn
      exact absurd hn (by simp)
  · -- pLink
    intro n v hn
    rcases S3 n with ⟨ha, hb⟩ | ⟨hnu, e, he, hs, ha, hb⟩
    · obtain ⟨hv, e, he, hse, heq⟩ := hpLink n v (hb.symm.trans hn)
      have hv' : v ∉ u.erase c := fun h => hv (List.mem_of_mem_erase h)
      refine ⟨hv', e, he, hse, ?_⟩
      rw [ha, (S1 v hv').1]
      exact heq
    · obtain rfl : c = v := by
        rw [hb] at hn
        exact Option.some.inj hn
      exact ⟨hcu', e, he, hs, by rw [ha, hdc']⟩
  · -- rank
    obtain ⟨r, hr1, hr2, hr3, hr4⟩ := hrank
    have hbound : r c + u.length ≤ N := by
      by_cases hp : p c = none
      · have := hr4 c hp
        omega
      · exact hr3 c hc hp
    refine ⟨fun n =>
      if (relaxAll edges m c (u.erase c) (d, p)).2 n = p n then r n else r c + 1,
      ?_, ?_, ?_, ?_⟩
    · intro n v hn
      dsimp only
      have hvsettled : v ∉ u.erase c := by
        rcases S3 n with ⟨_, hb⟩ | ⟨_, _, _, _, _, hb⟩
        · exact fun h =>
            ((hpLink n v (hb.symm.trans hn)).1) (List.mem_of_mem_erase h)
        · obtain rfl : c = v := by
            rw [hb] at hn
            exact Option.some.inj hn
          exact hcu'
      have hvconst : (relaxAll edges m c (u.erase c) (d, p)).2 v = p v :=
        (S1 v hvsettled).2
      rw [if_pos hvconst]
      by_cases hch : (relaxAll edges m c (u.erase c) (d, p)).2 n = p n
      · rw [if_pos hch]
        rw [hch] at hn
        exact hr1 n v hn
      · rw [if_neg hch]
        obtain rfl : c = v := by
          rcases S3 n with ⟨_, hb⟩ | ⟨_, _, _, _, _, hb⟩
          · exact absurd hb hch
          · rw [hb] at hn
            exact Option.some.inj hn
        omega
    · intro n hn hne
      dsimp only
      have hconst : (relaxAll edges m c (u.erase c) (d, p)).2 n = p n := by
        rcases S3 n with ⟨_, hb⟩ | ⟨hnu, _⟩
        · exact hb
        · exact absurd hnu hn
      rw [if_pos hconst]
      rw [hconst] at hne
      have hsplit : n = c ∨ n ∉ u := by
        by_cases hnc : n = c
        · exact Or.inl hnc
        · right
          intro hnu
          exact hn ((herase n).mpr ⟨hnc, hnu⟩)
      rcases hsplit with rfl | hnu
      · by_cases hp : p n = none
        · rw [hr4 n hp]
          omega
        · have := hr3 n hc hp
          omega
      · have := hr2 n hnu hne
        omega
    · intro n hn hne
      dsimp only
      have hnu : n ∈ u := List.mem_of_mem_erase hn
      by_cases hch : (relaxAll edges m c (u.erase c) (d, p)).2 n = p n
      · rw [if_pos hch]
        rw [hch] at hne
        have := hr3 n hnu hne
        omega
      · rw [if_neg hch]
        omega
    · intro n hn
      dsimp only
      have hconst : (relaxAll edges m c (u.erase c) (d, p)).2 n = p n := by
        rcases S3 n with ⟨_, hb⟩ | ⟨_, _, _, _, _, hb⟩
        · exact hb
        · rw [hb] at hn
          exact absurd hn (by simp)
      rw [if_pos hconst]
      exact hr4 n (hconst ▸ hn)

theorem settle_opt {edges : List Edge} {ids : List String} {m : ℚ}
    {u : List String} {d : DistMap} {p : PrevMap} {c : String}
    (hval : ∀ e ∈ edges, 0 ≤ e.weight ∧ e.source ∈ ids ∧ e.target ∈ ids)
    (hm : 0 ≤ m) (hND : u.Nodup) (hc : c ∈ u)
    (hmin : ∀ n ∈ u, d c ≤ d n)
    (hopt : OptInv edges ids m u d) :
    OptInv edges ids m (u.erase c) (relaxAll edges m c (u.erase c) (d, p)).1 := by
  have hcu' : c ∉ u.erase c := fun h => ((hND.mem_erase_iff).mp h).1 rfl
  have herase : ∀ x, x ∈ u.erase c ↔ x ≠ c ∧ x ∈ u := fun x => hND.mem_erase_iff
  obtain ⟨S1, S2, S3, S4⟩ := relaxAll_spec m c (u.erase c) hcu' edges (d, p)
  have hdc' : (relaxAll edges m c (u.erase c) (d, p)).1 c = d c := (S1 c hcu').1
  have hwnn : ∀ e ∈ edges, (0 : WithTop ℚ) ≤ ((e.weight * m : ℚ) : WithTop ℚ) := by
    intro e he
    rw [← WithTop.coe_zero, WithTop.coe_le_coe]
    exact mul_nonneg (hval e he).1 hm
  have hsettled : ∀ v, v ∉ u.erase c → v ∈ ids → v ∉ u → ∀ n ∈ u, d v ≤ d n :=
    fun v _ hvids hvu n hn => hopt.mono v hvids hvu n hn
  constructor
  · -- mono
    intro v hvids hv n hn
    have hdv : (relaxAll edges m c (u.erase c) (d, p)).1 v = d v := (S1 v hv).1
    rw [hdv]
    have hvcase : v = c ∨ v ∉ u := by
      by_cases hvc : v = c
      · exact Or.inl hvc
      · right
        intro hvu
        exact hv ((herase v).mpr ⟨hvc, hvu⟩)
    have hnu : n ∈ u := List.mem_of_mem_erase hn
    rcases S3 n with ⟨ha, _⟩ | ⟨_, e, he, _, ha, _⟩
    · rw [ha]
      rcases hvcase with rfl | hvu
      · exact hmin n hnu
      · exact hopt.mono v hvids hvu n hnu
    · rw [ha]
      have hvc : d v ≤ d c := by
        rcases hvcase with rfl | hvu
        · exact le_rfl
        · exact hopt.mono v hvids hvu c hc
      calc d v ≤ d c := hvc
        _ ≤ d c + ((e.weight * m : ℚ) : WithTop ℚ) :=
          le_add_of_nonneg_right (hwnn e he)
  · -- edgeRel
    intro v hv e he t hst
    have hdv : (relaxAll edges m c (u.erase c) (d, p)).1 v = d v := (S1 v hv).1
    rw [hdv]
    have hvcase : v = c ∨ v ∉ u := by
      by_cases hvc : v = c
      · exact Or.inl hvc
      · right
        intro hvu
        exact hv ((herase v).mpr ⟨hvc, hvu⟩)
    rcases hvcase with hvc | hvu
    · rw [hvc]
      rw [hvc] at hst
      by_cases ht' : t ∈ u.erase c
      · exact S4 e he t hst ht'
      · have htc : t = c ∨ t ∉ u := by
          by_cases htc : t = c
          · exact Or.inl htc
          · right
            intro htu
            exact ht' ((herase t).mpr ⟨htc, htu⟩)
        have hdt : (relaxAll edges m c (u.erase c) (d, p)).1 t = d t := (S1 t ht').1
        rw [hdt]
        rcases htc with rfl | htu
        · exact le_add_of_nonneg_right (hwnn e he)
        · have htids : t ∈ ids := by
            rcases hst with ⟨_, ht2⟩ | ⟨_, ht2⟩
            · exact ht2 ▸ (hval e he).2.2
            · exact ht2 ▸ (hval e he).2.1
          calc d t ≤ d c := hopt.mono t htids htu c hc
            _ ≤ d c + ((e.weight * m : ℚ) : WithTop ℚ) :=
              le_add_of_nonneg_right (hwnn e he)
    · have hold := hopt.edgeRel v hvu e he t hst
      exact le_trans (S2 t) hold

/-! ### Reduction equations and invariant propagation for the main loop -/

theorem dijkstraLoop_succ_empty (edges : List Edge) (m : ℚ) (fuel : Nat)
    (u : List String) (dp : DistMap × PrevMap) (h : u.isEmpty = true) :
    dijkstraLoop edges m (fuel + 1) u dp = dp := by
  unfold dijkstraLoop
  rw [h]
  rfl

theorem dijkstraLoop_succ_none (edges : List Edge) (m : ℚ) (fuel : Nat)
    (u : List String) (dp : DistMap × PrevMap) (v : WithTop ℚ)
    (hne : u.isEmpty = false) (hfm : findMinNode u dp.1 = (none, v)) :
    dijkstraLoop edges m (fuel + 1) u dp = dp := by
  unfold dijkstraLoop
  rw [hne, hfm]
  rfl

theorem dijkstraLoop_succ_some (edges : List Edge) (m : ℚ) (fuel : Nat)
    (u : List String) (dp : DistMap × PrevMap) (c : String) (v : WithTop ℚ)
    (hne : u.isEmpty = false) (hfm : findMinNode u dp.1 = (some c, v))
    (hdc : ¬ dp.1 c = ⊤) :
    dijkstraLoop edges m (fuel + 1) u dp =
      dijkstraLoop edges m fuel (u.erase c) (relaxAll edges m c (u.erase c) dp) := by
  conv_lhs => unfold dijkstraLoop
  rw [hne, hfm]
  show (if dp.1 c = ⊤ then dp
    else dijkstraLoop edges m fuel (u.erase c)
      (relaxAll edges m c (u.erase c) dp)) = _
  rw [if_neg hdc]

theorem dijkstraLoop_basic (edges : List Edge) (ids : List String) (N : ℕ)
    (source : String) (m : ℚ) :
    ∀ (fuel : Nat) (u : List String) (d : DistMap) (p : PrevMap),
      u.length ≤ fuel →
      BasicInv edges ids N source m u d p →
      ∃ u' : List String,
        BasicInv edges ids N source m u'
          (dijkstraLoop edges m fuel u (d, p)).1
          (dijkstraLoop edges m fuel u (d, p)).2 ∧
        ∀ n ∈ u', (dijkstraLoop edges m fuel u (d, p)).1 n = ⊤ := by
  intro fuel
  induction fuel with
  | zero =>
    intro u d p hu inv
    have : u = [] := List.length_eq_zero.mp (Nat.le_zero.mp hu)
    subst this
    exact ⟨[], inv, by simp⟩
  | succ fuel ih =>
    intro u d p hu inv
    rcases he : u.isEmpty with _ | _
    · rcases hfm : findMinNode u d with ⟨co, v⟩
      cases co with
      | none =>
        rw [dijkstraLoop_succ_none edges m fuel u (d, p) v he hfm]
        exact ⟨u, inv, findMinNode_eq_none hfm⟩
      | some c =>
        obtain ⟨hc, hv, hdc, hmin⟩ := findMinNode_eq_some hfm
        rw [dijkstraLoop_succ_some edges m fuel u (d, p) c v he hfm hdc]
        have hinv' := settle_basic inv.uNodup inv.uSub inv.uLen hc
          (fun h => inv.srcOut (List.mem_of_mem_erase h)) inv.dSource inv.pSource
          inv.pNone inv.pLink inv.rank
        have hlen' : (u.erase c).length ≤ fuel := by
          rw [List.length_erase_of_mem hc]
          have := List.length_pos.mpr (List.ne_nil_of_mem hc)
          omega
        exact ih (u.erase c) (relaxAll edges m c (u.erase c) (d, p)).1
          (relaxAll edges m c (u.erase c) (d, p)).2 hlen' hinv'
    · rw [dijkstraLoop_succ_empty edges m fuel u (d, p) he]
      exact ⟨u, inv, fun n hn =>
        absurd hn (by rw [List.isEmpty_iff.mp he]; simp)⟩

theorem dijkstraLoop_full (edges : List Edge) (ids : List String) (N : ℕ)
    (source : String) (m : ℚ)
    (hval : ∀ e ∈ edges, 0 ≤ e.weight ∧ e.source ∈ ids ∧ e.target ∈ ids)
    (hm : 0 ≤ m) :
    ∀ (fuel : Nat) (u : List String) (d : DistMap) (p : PrevMap),
      u.length ≤ fuel →
      BasicInv edges ids N source m u d p →
      OptInv edges ids m u d →
      ∃ u' : List String,
        BasicInv edges ids N source m u'
          (dijkstraLoop edges m fuel u (d, p)).1
          (dijkstraLoop edges m fuel u (d, p)).2 ∧
        OptInv edges ids m u' (dijkstraLoop edges m fuel u (d, p)).1 ∧
        ∀ n ∈ u', (dijkstraLoop edges m fuel u (d, p)).1 n = ⊤ := by
  intro fuel
  induction fuel with
  | zero =>
    intro u d p hu inv opt
    have : u = [] := List.length_eq_zero.mp (Nat.le_zero.mp hu)
    subst this
    exact ⟨[], inv, opt, by simp⟩
  | succ fuel ih =>
    intro u d p hu inv opt
    rcases he : u.isEmpty with _ | _
    · rcases hfm : findMinNode u d with ⟨co, v⟩
      cases co with
      | none =>
        rw [dijkstraLoop_succ_none edges m fuel u (d, p) v he hfm]
        exact ⟨u, inv, opt, findMinNode_eq_none hfm⟩
      | some c =>
        obtain ⟨hc, hv, hdc, hmin⟩ := findMinNode_eq_some hfm
        rw [dijkstraLoop_succ_some edges m fuel u (d, p) c v he hfm hdc]
        have hinv' := settle_basic inv.uNodup inv.uSub inv.uLen hc
          (fun h => inv.srcOut (List.mem_of_mem_erase h)) inv.dSource inv.pSource
          inv.pNone inv.pLink inv.rank
        have hopt' := @settle_opt edges ids m u d p c hval hm inv.uNodup hc hmin opt
        have hlen' : (u.erase c).length ≤ fuel := by
          rw [List.length_erase_of_mem hc]
          have := List.length_pos.mpr (List.ne_nil_of_mem hc)
          omega
        exact ih (u.erase c) (relaxAll edges m c (u.erase c) (d, p)).1
          (relaxAll edges m c (u.erase c) (d, p)).2 hlen' hinv' hopt'
    · rw [dijkstraLoop_succ_empty edges m fuel u (d, p) he]
      exact ⟨u, inv, opt, fun n hn =>
        absurd hn (by rw [List.isEmpty_iff.mp he]; simp)⟩

/-! ### Invariants of the full run of `dijkstra`'s main loop -/

theorem initial_ranks (ids : List String) (N : ℕ) (u : List String) :
    ∃ r : String → ℕ,
      (∀ n v, initPrevious ids n = some v → r v < r n) ∧
      (∀ n, n ∉ u → initPrevious ids n ≠ none → r n + u.length + 1 ≤ N) ∧
      (∀ n, n ∈ u → initPrevious ids n ≠ none → r n + u.length ≤ N) ∧
      (∀ n, initPrevious ids n = none → r n = 0) := by
  refine ⟨fun _ => 0, ?_, ?_, ?_, ?_⟩
  · intro n v hn
    rw [initPrevious_apply] at hn
    exact absurd hn (by simp)
  · intro n _ hn
    exact absurd (initPrevious_apply ids n) hn
  · intro n _ hn
    exact absurd (initPrevious_apply ids n) hn
  · intro n _
    rfl

theorem dijkstraState_absent (g : Graph) (s : String) (m : ℚ)
    (hs : s ∉ graphNodeIds g) :
    ∀ n, (dijkstraState g s m).1 n = ⊤ ∧ (dijkstraState g s m).2 n = none := by
  have hall : ∀ n, initDistances (graphNodeIds g) s n = ⊤ := by
    intro n
    rw [initDistances_apply]
    by_cases h1 : n ∈ graphNodeIds g
    · rw [if_pos h1]
      by_cases h2 : n = s
      · exact absurd (h2 ▸ h1) hs
      · rw [if_neg h2]
    · rw [if_neg h1]
  have hstate : dijkstraState g s m =
      (initDistances (graphNodeIds g) s, initPrevious (graphNodeIds g)) := by
    simp only [dijkstraState]
    rcases hu : (mkNodeSet (graphNodeIds g)).length with _ | k
    · have hnil : mkNodeSet (graphNodeIds g) = [] := List.length_eq_zero.mp hu
      rw [hnil]
      rfl
    · have hne : (mkNodeSet (graphNodeIds g)).isEmpty = false := by
        rcases hemp : (mkNodeSet (graphNodeIds g)).isEmpty with _ | _
        · rfl
        · rw [List.isEmpty_iff.mp hemp] at hu
          simp at hu
      rcases hfm : findMinNode (mkNodeSet (graphNodeIds g))
          (initDistances (graphNodeIds g) s) with ⟨co, v⟩
      cases co with
      | none =>
        exact dijkstraLoop_succ_none g.edges m k _ _ v hne hfm
      | some c =>
        obtain ⟨_, _, hdc, _⟩ := findMinNode_eq_some hfm
        exact absurd (hall c) hdc
  rw [hstate]
  exact fun n => ⟨hall n, initPrevious_apply _ n⟩

theorem dijkstraState_basic (g : Graph) (s : String) (m : ℚ)
    (hs : s ∈ graphNodeIds g) :
    ∃ u' : List String,
      BasicInv g.edges (graphNodeIds g) (mkNodeSet (graphNodeIds g)).length s m u'
        (dijkstraState g s m).1 (dijkstraState g s m).2 ∧
      ∀ n ∈ u', (dijkstraState g s m).1 n = ⊤ := by
  have hsu : s ∈ mkNodeSet (graphNodeIds g) := mem_mkNodeSet.mpr hs
  have hd0s : initDistances (graphNodeIds g) s s = 0 := by
    rw [initDistances_apply, if_pos hs, if_pos rfl]
  have hd0 : ∀ n, n ≠ s → initDistances (graphNodeIds g) s n = ⊤ := by
    intro n hn
    rw [initDistances_apply]
    by_cases h1 : n ∈ graphNodeIds g
    · rw [if_pos h1, if_neg hn]
    · rw [if_neg h1]
  have hne : (mkNodeSet (graphNodeIds g)).isEmpty = false := by
    rcases hemp : (mkNodeSet (graphNodeIds g)).isEmpty with _ | _
    · rfl
    · rw [List.isEmpty_iff.mp hemp] at hsu
      simp at hsu
  obtain ⟨k, hk⟩ : ∃ k, (mkNodeSet (graphNodeIds g)).length = k + 1 :=
    ⟨(mkNodeSet (graphNodeIds g)).length - 1, by
      have := List.length_pos.mpr (List.ne_nil_of_mem hsu)
      omega⟩
  rcases hfm : findMinNode (mkNodeSet (graphNodeIds g))
      (initDistances (graphNodeIds g) s) with ⟨co, v⟩
  cases co with
  | none =>
    have := findMinNode_eq_none hfm s hsu
    rw [hd0s] at this
    exact absurd this (by simp)
  | some c =>
    obtain ⟨hc, _, hdc, hmin⟩ := findMinNode_eq_some hfm
    have hcs : c = s := by
      by_contra hcs
      exact hdc (hd0 c hcs)
    obtain rfl : s = c := hcs.symm
    have hstate : dijkstraState g s m =
        dijkstraLoop g.edges m k (( mkNodeSet (graphNodeIds g)).erase s)
          (relaxAll g.edges m s ((mkNodeSet (graphNodeIds g)).erase s)
            (initDistances (graphNodeIds g) s, initPrevious (graphNodeIds g))) := by
      simp only [dijkstraState]
      rw [hk]
      exact dijkstraLoop_succ_some g.edges m k _ _ s v hne hfm hdc
    have hinv₁ := @settle_basic g.edges (graphNodeIds g)
      ((mkNodeSet (graphNodeIds g)).length) s m
      (mkNodeSet (graphNodeIds g)) (initDistances (graphNodeIds g) s)
      (initPrevious (graphNodeIds g)) s
      (mkNodeSet_nodup _) (fun x hx => mem_mkNodeSet.mp hx) le_rfl hc
      (fun h => (((mkNodeSet_nodup (graphNodeIds g)).mem_erase_iff).mp h).1 rfl)
      hd0s (initPrevious_apply _ s)
      (fun n hn => by
        by_cases hns : n = s
        · exact Or.inr hns
        · exact Or.inl (hd0 n hns))
      (fun n v hn => by
        rw [initPrevious_apply] at hn
        exact absurd hn (by simp))
      (initial_ranks _ _ _)
    have hlen₁ : ((mkNodeSet (graphNodeIds g)).erase s).length ≤ k := by
      rw [List.length_erase_of_mem hc, hk]
      omega
    rw [hstate]
    exact dijkstraLoop_basic g.edges (graphNodeIds g) _ s m k _ _ _ hlen₁ hinv₁

theorem dijkstraState_full (g : Graph) (s : String) (m : ℚ)
    (hval : ValidGraph g) (hm : 0 ≤ m) (hs : s ∈ graphNodeIds g) :
    ∃ u' : List String,
      BasicInv g.edges (graphNodeIds g) (mkNodeSet (graphNodeIds g)).length s m u'
        (dijkstraState g s m).1 (dijkstraState g s m).2 ∧
      OptInv g.edges (graphNodeIds g) m u' (dijkstraState g s m).1 ∧
      ∀ n ∈ u', (dijkstraState g s m).1 n = ⊤ := by
  have hsu : s ∈ mkNodeSet (graphNodeIds g) := mem_mkNodeSet.mpr hs
  have hd0s : initDistances (graphNodeIds g) s s = 0 := by
    rw [initDistances_apply, if_pos hs, if_pos rfl]
  have hd0 : ∀ n, n ≠ s → initDistances (graphNodeIds g) s n = ⊤ := by
    intro n hn
    rw [initDistances_apply]
    by_cases h1 : n ∈ graphNodeIds g
    · rw [if_pos h1, if_neg hn]
    · rw [if_neg h1]
  have hne : (mkNodeSet (graphNodeIds g)).isEmpty = false := by
    rcases hemp : (mkNodeSet (graphNodeIds g)).isEmpty with _ | _
    · rfl
    · rw [List.isEmpty_iff.mp hemp] at hsu
      simp at hsu
  obtain ⟨k, hk⟩ : ∃ k, (mkNodeSet (graphNodeIds g)).length = k + 1 :=
    ⟨(mkNodeSet (graphNodeIds g)).length - 1, by
      have := List.length_pos.mpr (List.ne_nil_of_mem hsu)
      omega⟩
  rcases hfm : findMinNode (mkNodeSet (graphNodeIds g))
      (initDistances (graphNodeIds g) s) with ⟨co, v⟩
  cases co with
  | none =>
    have := findMinNode_eq_none hfm s hsu
    rw [hd0s] at this
    exact absurd this (by simp)
  | some c =>
    obtain ⟨hc, _, hdc, hmin⟩ := findMinNode_eq_some hfm
    have hcs : c = s := by
      by_contra hcs
      exact hdc (hd0 c hcs)
    obtain rfl : s = c := hcs.symm
    have hstate : dijkstraState g s m =
        dijkstraLoop g.edges m k ((mkNodeSet (graphNodeIds g)).erase s)
          (relaxAll g.edges m s ((mkNodeSet (graphNodeIds g)).erase s)
            (initDistances (graphNodeIds g) s, initPrevious (graphNodeIds g))) := by
      simp only [dijkstraState]
      rw [hk]
      exact dijkstraLoop_succ_some g.edges m k _ _ s v hne hfm hdc
    have hinv₁ := @settle_basic g.edges (graphNodeIds g)
      ((mkNodeSet (graphNodeIds g)).length) s m
      (mkNodeSet (graphNodeIds g)) (initDistances (graphNodeIds g) s)
      (initPrevious (graphNodeIds g)) s
      (mkNodeSet_nodup _) (fun x hx => mem_mkNodeSet.mp hx) le_rfl hc
      (fun h => (((mkNodeSet_nodup (graphNodeIds g)).mem_erase_iff).mp h).1 rfl)
      hd0s (initPrevious_apply _ s)
      (fun n hn => by
        by_cases hns : n = s
        · exact Or.inr hns
        · exact Or.inl (hd0 n hns))
      (fun n v hn => by
        rw [initPrevious_apply] at hn
        exact absurd hn (by simp))
      (initial_ranks _ _ _)
    have hval' : ∀ e ∈ g.edges, 0 ≤ e.weight ∧ e.source ∈ graphNodeIds g ∧
        e.target ∈ graphNodeIds g := hval
    have hopt₀ : OptInv g.edges (graphNodeIds g) m (mkNodeSet (graphNodeIds g))
        (initDistances (graphNodeIds g) s) := by
      constructor
      · intro vx hvx hvx' n _
        exact absurd (mem_mkNodeSet.mpr hvx) hvx'
      · intro vx hvx e he t hst
        have : vx ∈ graphNodeIds g := by
          rcases hst with ⟨h1, _⟩ | ⟨h1, _⟩
          · exact h1 ▸ (hval' e he).2.1
          · exact h1 ▸ (hval' e he).2.2
        exact absurd (mem_mkNodeSet.mpr this) hvx
    have hopt₁ := @settle_opt g.edges (graphNodeIds g) m (mkNodeSet (graphNodeIds g))
      (initDistances (graphNodeIds g) s) (initPrevious (graphNodeIds g)) s hval' hm
      (mkNodeSet_nodup _) hc
      (fun n hn => by
        rw [hd0s]
        rw [initDistances_apply]
        split_ifs
        · exact le_rfl
        · exact le_top
        · exact le_top)
      hopt₀
    have hlen₁ : ((mkNodeSet (graphNodeIds g)).erase s).length ≤ k := by
      rw [List.length_erase_of_mem hc, hk]
      omega
    rw [hstate]
    exact dijkstraLoop_full g.edges (graphNodeIds g) _ s m hval' hm k _ _ _
      hlen₁ hinv₁ hopt₁

/-! ### Predecessor chains, walks and their costs -/

theorem walkPrev_succ_none {p : PrevMap} {f : Nat} {n : String} (hp : p n = none) :
    walkPrev p (f + 1) n = [n] := by
  unfold walkPrev
  rw [hp]

theorem walkPrev_succ_some {p : PrevMap} {f : Nat} {n v : String}
    (hp : p n = some v) : walkPrev p (f + 1) n = walkPrev p f v ++ [n] := by
  conv_lhs => unfold walkPrev
  rw [hp]

theorem walkPrev_stable {p : PrevMap} {r : String → ℕ}
    (hr : ∀ n v, p n = some v → r v < r n) :
    ∀ (k : Nat) (n : String) (f f' : Nat), r n < k → r n < f → r n < f' →
      walkPrev p f n = walkPrev p f' n := by
  intro k
  induction k with
  | zero => omega
  | succ k ih =>
    intro n f f' hk hf hf'
    obtain ⟨f₀, rfl⟩ : ∃ f₀, f = f₀ + 1 := ⟨f - 1, by omega⟩
    obtain ⟨f₀', rfl⟩ : ∃ f₀', f' = f₀' + 1 := ⟨f' - 1, by omega⟩
    rcases hp : p n with _ | v
    · rw [walkPrev_succ_none hp, walkPrev_succ_none hp]
    · have hv := hr n v hp
      rw [walkPrev_succ_some hp, walkPrev_succ_some hp,
        ih v f₀ f₀' (by omega) (by omega) (by omega)]

theorem stepsAlong_nil_inv {edges : List Edge} {ns : List String}
    (h : StepsAlong edges ns []) : ∃ x, ns = [x] := by
  match ns with
  | [] => exact (h : False).elim
  | [x] => exact ⟨x, rfl⟩
  | a :: b :: rest => exact (h : False).elim

theorem stepsAlong_cons_inv {edges : List Edge} {ns : List String} {e : Edge}
    {es : List Edge} (h : StepsAlong edges ns (e :: es)) :
    ∃ a b rest, ns = a :: b :: rest ∧ e ∈ edges ∧ stepOk e a b ∧
      StepsAlong edges (b :: rest) es := by
  match ns with
  | [] => exact (h : False).elim
  | [x] => exact (h : False).elim
  | a :: b :: rest => exact ⟨a, b, rest, rfl, h.1, h.2.1, h.2.2⟩

theorem stepsAlong_mem {edges : List Edge} :
    ∀ {es : List Edge} {ns : List String}, StepsAlong edges ns es →
      ∀ e ∈ es, e ∈ edges := by
  intro es
  induction es with
  | nil =>
    intro ns h e he
    exact absurd he (List.not_mem_nil e)
  | cons e' es ih =>
    intro ns h e he
    obtain ⟨a, b, rest, rfl, hmem, hstep, hrest⟩ := stepsAlong_cons_inv h
    rcases List.mem_cons.mp he with rfl | he
    · exact hmem
    · exact ih hrest e he

theorem stepsAlong_append_one {edges : List Edge} :
    ∀ {es : List Edge} {ns : List String} {v n : String} {e : Edge},
      StepsAlong edges ns es → ns.getLast? = some v → e ∈ edges → stepOk e v n →
      StepsAlong edges (ns ++ [n]) (es ++ [e]) := by
  intro es
  induction es with
  | nil =>
    intro ns v n e h hlast he hs
    obtain ⟨x, rfl⟩ := stepsAlong_nil_inv h
    obtain rfl : x = v := by simpa using hlast
    exact ⟨he, hs, trivial⟩
  | cons e' es ih =>
    intro ns v n e h hlast he hs
    obtain ⟨a, b, rest, rfl, hmem, hstep, hrest⟩ := stepsAlong_cons_inv h
    have hlast' : (b :: rest).getLast? = some v := by
      rwa [List.getLast?_cons_cons] at hlast
    exact ⟨hmem, hstep, ih hrest hlast' he hs⟩

theorem walkCost_nil (m : ℚ) : walkCost m [] = 0 := rfl

theorem walkCost_append_one (m : ℚ) (es : List Edge) (e : Edge) :
    walkCost m (es ++ [e]) = walkCost m es + e.weight * m := by
  simp [walkCost]

theorem walkCost_cons (m : ℚ) (e : Edge) (es : List Edge) :
    walkCost m (e :: es) = e.weight * m + walkCost m es := by
  simp [walkCost]

theorem walkCost_nonneg {m : ℚ} {edges es : List Edge} {ns : List String}
    (hm : 0 ≤ m) (hw : ∀ e ∈ edges, 0 ≤ e.weight)
    (h : StepsAlong edges ns es) : 0 ≤ walkCost m es := by
  apply List.sum_nonneg
  intro x hx
  obtain ⟨e, he, rfl⟩ := List.mem_map.mp hx
  exact mul_nonneg (hw e (stepsAlong_mem h e he)) hm

theorem chain_gives_walk {edges : List Edge} {source : String} {m : ℚ}
    {d : DistMap} {p : PrevMap} {r : String → ℕ}
    (hr : ∀ n v, p n = some v → r v < r n)
    (hdsrc : d source = 0)
    (hpNone : ∀ n, p n = none → d n = ⊤ ∨ n = source)
    (hpLink : ∀ n v, p n = some v → ∃ e ∈ edges, stepOk e v n ∧
      d n = d v + ((e.weight * m : ℚ) : WithTop ℚ)) :
    ∀ (k : Nat) (n : String) (q : ℚ) (f : Nat), r n < k → r n < f →
      d n = (q : WithTop ℚ) →
      ∃ es, StepsAlong edges (walkPrev p f n) es ∧ walkCost m es = q ∧
        (walkPrev p f n).head? = some source ∧
        (walkPrev p f n).getLast? = some n := by
  intro k
  induction k with
  | zero => omega
  | succ k ih =>
    intro n q f hk hf hd
    obtain ⟨f₀, rfl⟩ : ∃ f₀, f = f₀ + 1 := ⟨f - 1, by omega⟩
    rcases hp : p n with _ | v
    · rcases hpNone n hp with htop | rfl
      · rw [hd] at htop
        exact absurd htop (by simp)
      · have hq : q = 0 := by
          rw [hdsrc] at hd
          exact_mod_cast hd.symm
        rw [walkPrev_succ_none hp]
        exact ⟨[], trivial, by rw [walkCost_nil, hq], rfl, rfl⟩
    · obtain ⟨e, he, hs, heq⟩ := hpLink n v hp
      rw [hd] at heq
      by_cases hdv : d v = ⊤
      · rw [hdv, top_add] at heq
        exact absurd heq (by simp)
      · obtain ⟨q', hq'⟩ := WithTop.ne_top_iff_exists.mp hdv
        rw [← hq', ← WithTop.coe_add] at heq
        have hq : q = q' + e.weight * m := by exact_mod_cast heq
        have hrv := hr n v hp
        obtain ⟨es', hsteps, hcost, hhead, hlast⟩ :=
          ih v q' f₀ (by omega) (by omega) hq'.symm
        rw [walkPrev_succ_some hp]
        refine ⟨es' ++ [e], stepsAlong_append_one hsteps hlast he hs, ?_, ?_, ?_⟩
        · rw [walkCost_append_one, hcost, hq]
        · have hne : walkPrev p f₀ v ≠ [] := by
            intro hnil
            rw [hnil] at hhead
            exact absurd hhead (by simp)
          rw [List.head?_append_of_ne_nil _ hne]
          exact hhead
        · simp

theorem walk_last_mem {edges : List Edge} {ids : List String}
    (hval : ∀ e ∈ edges, 0 ≤ e.weight ∧ e.source ∈ ids ∧ e.target ∈ ids) :
    ∀ {es : List Edge} {ns : List String} {a b : String},
      StepsAlong edges ns es → ns.head? = some a → ns.getLast? = some b →
      b = a ∨ b ∈ ids := by
  intro es
  induction es with
  | nil =>
    intro ns a b h hhead hlast
    obtain ⟨x, rfl⟩ := stepsAlong_nil_inv h
    have hx : x = a := by simpa using hhead
    have hb : x = b := by simpa using hlast
    exact Or.inl (by rw [← hb, hx])
  | cons e es ih =>
    intro ns a b h hhead hlast
    obtain ⟨a', b', rest, rfl, hmem, hstep, hrest⟩ := stepsAlong_cons_inv h
    have hlast' : (b' :: rest).getLast? = some b := by
      rwa [List.getLast?_cons_cons] at hlast
    have hb'ids : b' ∈ ids := by
      rcases hstep with ⟨_, h2⟩ | ⟨_, h2⟩
      · exact h2 ▸ (hval e hmem).2.2
      · exact h2 ▸ (hval e hmem).2.1
    rcases ih hrest rfl hlast' with rfl | hbids
    · exact Or.inr hb'ids
    · exact Or.inr hbids

theorem walk_lower_bound {edges : List Edge} {ids : List String} {m : ℚ}
    {u : List String} {d : DistMap}
    (hval : ∀ e ∈ edges, 0 ≤ e.weight ∧ e.source ∈ ids ∧ e.target ∈ ids)
    (hm : 0 ≤ m)
    (hopt : OptInv edges ids m u d) :
    ∀ (es : List Edge) (ns : List String) (a b : String),
      StepsAlong edges ns es → ns.head? = some a → ns.getLast? = some b →
      a ∉ u →
      (b ∉ u → d b ≤ d a + ((walkCost m es : ℚ) : WithTop ℚ)) ∧
      (b ∈ u → ∃ w ∈ u, d w ≤ d a + ((walkCost m es : ℚ) : WithTop ℚ)) := by
  intro es
  induction es with
  | nil =>
    intro ns a b h hhead hlast ha
    obtain ⟨x, rfl⟩ := stepsAlong_nil_inv h
    obtain rfl : a = x := by simpa using hhead.symm
    obtain rfl : b = a := by simpa using hlast.symm
    refine ⟨fun _ => ?_, fun hb => absurd hb ha⟩
    rw [walkCost_nil, WithTop.coe_zero, add_zero]
  | cons e es ih =>
    intro ns a b h hhead hlast ha
    obtain ⟨a', b', rest, rfl, hmem, hstep, hrest⟩ := stepsAlong_cons_inv h
    obtain rfl : a = a' := by simpa using hhead.symm
    have hlast' : (b' :: rest).getLast? = some b := by
      rwa [List.getLast?_cons_cons] at hlast
    have hstepb : d b' ≤ d a + ((e.weight * m : ℚ) : WithTop ℚ) :=
      hopt.edgeRel a ha e hmem b' hstep
    have hcost' : 0 ≤ walkCost m es :=
      walkCost_nonneg hm (fun e' he' => (hval e' he').1) hrest
    have hcost_eq : walkCost m (e :: es) = e.weight * m + walkCost m es :=
      walkCost_cons m e es
    have hmono_tail : d a + ((e.weight * m : ℚ) : WithTop ℚ) ≤
        d a + ((walkCost m (e :: es) : ℚ) : WithTop ℚ) := by
      rw [hcost_eq]
      exact add_le_add_left (WithTop.coe_le_coe.mpr
        (le_add_of_nonneg_right hcost')) (d a)
    by_cases hb' : b' ∈ u
    · refine ⟨fun hb => ?_, fun _ => ⟨b', hb', le_trans hstepb hmono_tail⟩⟩
      rcases walk_last_mem hval hrest rfl hlast' with rfl | hbids
      · exact absurd hb' hb
      · calc d b ≤ d b' := hopt.mono b hbids hb b' hb'
          _ ≤ d a + ((e.weight * m : ℚ) : WithTop ℚ) := hstepb
          _ ≤ d a + ((walkCost m (e :: es) : ℚ) : WithTop ℚ) := hmono_tail
    · obtain ⟨ih1, ih2⟩ := ih (b' :: rest) b' b hrest rfl hlast' hb'
      have hcomb : d b' + ((walkCost m es : ℚ) : WithTop ℚ) ≤
          d a + ((walkCost m (e :: es) : ℚ) : WithTop ℚ) := by
        rw [hcost_eq]
        calc d b' + ((walkCost m es : ℚ) : WithTop ℚ) ≤
            (d a + ((e.weight * m : ℚ) : WithTop ℚ)) +
              ((walkCost m es : ℚ) : WithTop ℚ) :=
              add_le_add_right hstepb _
          _ = d a + (((e.weight * m + walkCost m es : ℚ)) : WithTop ℚ) := by
              rw [add_assoc, ← WithTop.coe_add]
      refine ⟨fun hb => le_trans (ih1 hb) hcomb, fun hb => ?_⟩
      obtain ⟨w, hw, hwle⟩ := ih2 hb
      exact ⟨w, hw, le_trans hwle hcomb⟩

/-! ### The dijkstra claims -/

theorem dijkstraMult_fst (g : Graph) (s : String) (m : ℚ) :
    (dijkstraMult g s m).1 = (dijkstraState g s m).1 := rfl

theorem dijkstraMult_paths (g : Graph) (s : String) (m : ℚ) (n : String) :
    (dijkstraMult g s m).2 n =
      if n = s then [n]
      else if (dijkstraState g s m).2 n = none ∨ (dijkstraState g s m).1 n = ⊤
        then []
      else walkPrev (dijkstraState g s m).2 g.nodes.length n := rfl

theorem reachable_self (edges : List Edge) (s : String) : Reachable edges s s :=
  ⟨[s], [], rfl, rfl, trivial⟩

theorem graphNodeIds_length (g : Graph) :
    (graphNodeIds g).length = g.nodes.length := by
  simp [graphNodeIds]

/-- **C9**. For every graph and sourceId present in the graph (and any traffic
level), `dijkstra` returns distance 0 for the source and the single-element
path `[sourceId]`. -/
theorem c9_source_distance_and_path (g : Graph) (sourceId : String)
    (lvl : TrafficLevel) (hs : sourceId ∈ graphNodeIds g) :
    (dijkstra g sourceId lvl).1 sourceId = 0 ∧
      (dijkstra g sourceId lvl).2 sourceId = [sourceId] := by
  obtain ⟨u', inv, _⟩ :=
    dijkstraState_basic g sourceId (trafficMultipliers lvl) hs
  constructor
  · rw [dijkstra, dijkstraMult_fst]
    exact inv.dSource
  · rw [dijkstra, dijkstraMult_paths, if_pos rfl]

/-- Witness for `c9_source_distance_and_path` at a concrete input. -/
theorem c9_witness :
    (dijkstra (Graph.mk [⟨"A", "A", 0, 0⟩, ⟨"B", "B", 0, 0⟩] [⟨"A", "B", 8⟩])
        "A" .Medium).1 "A" = 0 ∧
      (dijkstra (Graph.mk [⟨"A", "A", 0, 0⟩, ⟨"B", "B", 0, 0⟩] [⟨"A", "B", 8⟩])
        "A" .Medium).2 "A" = ["A"] :=
  c9_source_distance_and_path
    (Graph.mk [⟨"A", "A", 0, 0⟩, ⟨"B", "B", 0, 0⟩] [⟨"A", "B", 8⟩]) "A" .Medium
    (by decide)

/-- **C7**. For every graph (any traffic level) and node of the graph that is
unreachable from the source, `dijkstra` returns the Infinity sentinel as its
distance and the empty path (the function is total, so no error is raised).
This also covers a source id absent from the graph. -/
theorem c7_unreachable_infinity_empty (g : Graph) (sourceId : String)
    (lvl : TrafficLevel) (n : String) (hn : n ∈ graphNodeIds g)
    (hur : ¬ Reachable g.edges sourceId n) :
    (dijkstra g sourceId lvl).1 n = ⊤ ∧ (dijkstra g sourceId lvl).2 n = [] := by
  have hns : n ≠ sourceId := by
    rintro rfl
    exact hur (reachable_self g.edges n)
  by_cases hsrc : sourceId ∈ graphNodeIds g
  · obtain ⟨u', inv, hfin⟩ :=
      dijkstraState_basic g sourceId (trafficMultipliers lvl) hsrc
    have hdn : (dijkstraState g sourceId (trafficMultipliers lvl)).1 n = ⊤ := by
      by_contra hne
      obtain ⟨q, hq⟩ := WithTop.ne_top_iff_exists.mp hne
      obtain ⟨r, hr1, _, _, _⟩ := inv.rank
      obtain ⟨es, hsteps, _, hhead, hlast⟩ :=
        chain_gives_walk hr1 inv.dSource inv.pNone
          (fun a b h => (inv.pLink a b h).2) (r n + 1) n q (r n + 1)
          (by omega) (by omega) hq.symm
      exact hur ⟨_, es, hhead, hlast, hsteps⟩
    refine ⟨by rw [dijkstra, dijkstraMult_fst]; exact hdn, ?_⟩
    rw [dijkstra, dijkstraMult_paths, if_neg hns, if_pos (Or.inr hdn)]
  · have habs := dijkstraState_absent g sourceId (trafficMultipliers lvl) hsrc
    refine ⟨by rw [dijkstra, dijkstraMult_fst]; exact (habs n).1, ?_⟩
    rw [dijkstra, dijkstraMult_paths, if_neg hns, if_pos (Or.inl (habs n).2)]

/-- Witness for `c7_unreachable_infinity_empty` at a concrete input: the node
D is isolated (the graph has no edges at all), hence unreachable from A. -/
theorem c7_witness :
    (dijkstra (Graph.mk [⟨"A", "A", 0, 0⟩, ⟨"D", "D", 0, 0⟩] []) "A" .Medium).1
        "D" = ⊤ ∧
      (dijkstra (Graph.mk [⟨"A", "A", 0, 0⟩, ⟨"D", "D", 0, 0⟩] []) "A" .Medium).2
        "D" = [] :=
  c7_unreachable_infinity_empty (Graph.mk [⟨"A", "A", 0, 0⟩, ⟨"D", "D", 0, 0⟩] [])
    "A" .Medium "D" (by decide)
    (by
      rintro ⟨ns, es, hhead, hlast, hsteps⟩
      cases es with
      | nil =>
        obtain ⟨x, rfl⟩ := stepsAlong_nil_inv hsteps
        have h1 : x = "A" := by simpa using hhead
        have h2 : x = "D" := by simpa using hlast
        rw [h1] at h2
        exact absurd h2 (by decide)
      | cons e es =>
        obtain ⟨a, b, rest, rfl, hmem, _, _⟩ := stepsAlong_cons_inv hsteps
        exact absurd hmem (List.not_mem_nil e))

/-- **C2** fails as frozen: `dijkstra` performs no validation of `sourceId`
at all. Called with the absent source id "X" it does not signal any error —
it returns an ordinary `(distances, paths)` value in which the only node A
is at the Infinity sentinel with an empty path. -/
theorem c2_counterexample :
    (dijkstra (Graph.mk [⟨"A", "A", 0, 0⟩] []) "X" .Medium).1 "A" = ⊤ ∧
      (dijkstra (Graph.mk [⟨"A", "A", 0, 0⟩] []) "X" .Medium).2 "A" = [] ∧
      (dijkstra (Graph.mk [⟨"A", "A", 0, 0⟩] []) "X" .Medium).1 "X" = ⊤ := by
  with_unfolding_all decide

/-- **C2** (amended). With a `sourceId` that is not the id of any node,
`dijkstra` silently returns a degraded result — every node of the graph gets
the Infinity sentinel as its distance and the empty path — instead of
signaling an InvalidInput error; the guard that rejects an unknown source id
exists only in `getColoredEdges`, which returns an empty edge list. -/
theorem c2_absent_source_returns_degraded_result (g : Graph) (sourceId : String)
    (lvl : TrafficLevel) (hs : sourceId ∉ graphNodeIds g) :
    ∀ n ∈ graphNodeIds g,
      (dijkstra g sourceId lvl).1 n = ⊤ ∧ (dijkstra g sourceId lvl).2 n = [] := by
  intro n hn
  have habs := dijkstraState_absent g sourceId (trafficMultipliers lvl) hs
  have hns : n ≠ sourceId := by
    rintro rfl
    exact hs hn
  refine ⟨by rw [dijkstra, dijkstraMult_fst]; exact (habs n).1, ?_⟩
  rw [dijkstra, dijkstraMult_paths, if_neg hns, if_pos (Or.inl (habs n).2)]

/-- Witness for `c2_absent_source_returns_degraded_result`. -/
theorem c2_witness :
    (dijkstra (Graph.mk [⟨"A", "A", 0, 0⟩] []) "X" .Medium).1 "A" = ⊤ ∧
      (dijkstra (Graph.mk [⟨"A", "A", 0, 0⟩] []) "X" .Medium).2 "A" = [] :=
  c2_absent_source_returns_degraded_result (Graph.mk [⟨"A", "A", 0, 0⟩] [])
    "X" .Medium (by decide) "A" (by decide)

/-- **C1**. For every graph with non-negative weights and valid endpoints,
source present in the graph, positive traffic multiplier, and node reachable
from the source: the distance returned by `dijkstra` is finite and is the
least element of the set of traffic-adjusted costs of all walks from the
source to that node, and the returned path is itself a walk from the source
to that node along graph edges whose accumulated weighted length equals that
distance. -/
theorem c1_dijkstra_shortest_paths (g : Graph) (sourceId : String) (m : ℚ)
    (n : String) (hval : ValidGraph g) (hsrc : sourceId ∈ graphNodeIds g)
    (hm : 0 < m) (hreach : Reachable g.edges sourceId n) :
    ∃ q : ℚ, (dijkstraMult g sourceId m).1 n = (q : WithTop ℚ) ∧
      IsLeast (walkCostSet g.edges m sourceId n) q ∧
      ∃ es, IsWalkFrom g.edges sourceId n ((dijkstraMult g sourceId m).2 n) es ∧
        walkCost m es = q := by
  obtain ⟨u', inv, opt, hfin⟩ := dijkstraState_full g sourceId m hval hm.le hsrc
  obtain ⟨ns, es, hhead, hlast, hsteps⟩ := hreach
  have hlb := walk_lower_bound hval hm.le opt es ns sourceId n hsteps hhead hlast
    inv.srcOut
  have hnotu : n ∉ u' := by
    intro hnu
    obtain ⟨w, hw, hwle⟩ := hlb.2 hnu
    rw [hfin w hw, inv.dSource, zero_add] at hwle
    exact absurd (top_le_iff.mp hwle) (by simp)
  have hdn := hlb.1 hnotu
  rw [inv.dSource, zero_add] at hdn
  have hdnetop : (dijkstraState g sourceId m).1 n ≠ ⊤ :=
    ne_top_of_le_ne_top (by simp) hdn
  obtain ⟨q, hq⟩ := WithTop.ne_top_iff_exists.mp hdnetop
  have hlow : ∀ c ∈ walkCostSet g.edges m sourceId n, q ≤ c := by
    rintro c ⟨ns', es', ⟨hh, hl, hst⟩, hc⟩
    have := (walk_lower_bound hval hm.le opt es' ns' sourceId n hst hh hl
      inv.srcOut).1 hnotu
    rw [inv.dSource, zero_add, ← hq, hc] at this
    exact_mod_cast this
  by_cases hns : n = sourceId
  · subst hns
    have hq0 : q = 0 := by
      rw [inv.dSource] at hq
      exact_mod_cast hq
    refine ⟨q, by rw [dijkstraMult_fst, ← hq], ⟨⟨[n], [], ⟨rfl, rfl, trivial⟩,
      by rw [walkCost_nil, hq0]⟩, hlow⟩, [], ?_, by rw [walkCost_nil, hq0]⟩
    rw [dijkstraMult_paths, if_pos rfl]
    exact ⟨rfl, rfl, trivial⟩
  · have hpn : (dijkstraState g sourceId m).2 n ≠ none := by
      intro hno
      rcases inv.pNone n hno with htop | hsrc'
      · exact hdnetop htop
      · exact hns hsrc'
    obtain ⟨r, hr1, hr2, _, _⟩ := inv.rank
    have hrn : r n < g.nodes.length := by
      have h1 := hr2 n hnotu hpn
      have h2 : (mkNodeSet (graphNodeIds g)).length ≤ g.nodes.length := by
        rw [← graphNodeIds_length g]
        exact mkNodeSet_length_le _
      omega
    obtain ⟨es', hsteps', hcost', hhead', hlast'⟩ :=
      chain_gives_walk hr1 inv.dSource inv.pNone
        (fun a b h => (inv.pLink a b h).2) (r n + 1) n q g.nodes.length
        (by omega) hrn hq.symm
    have hpath : (dijkstraMult g sourceId m).2 n =
        walkPrev (dijkstraState g sourceId m).2 g.nodes.length n := by
      rw [dijkstraMult_paths, if_neg hns, if_neg]
      rintro (h | h)
      · exact hpn h
      · exact hdnetop h
    refine ⟨q, by rw [dijkstraMult_fst, ← hq],
      ⟨⟨walkPrev (dijkstraState g sourceId m).2 g.nodes.length n, es',
        ⟨hhead', hlast', hsteps'⟩, hcost'⟩, hlow⟩,
      es', ?_, hcost'⟩
    rw [hpath]
    exact ⟨hhead', hlast', hsteps'⟩

/-- Witness for `c1_dijkstra_shortest_paths` at a concrete input (the chain
A–B–C of the specification's scenario). -/
theorem c1_witness :
    ValidGraph (Graph.mk [⟨"A", "A", 0, 0⟩, ⟨"B", "B", 0, 0⟩, ⟨"C", "C", 0, 0⟩]
        [⟨"A", "B", 5⟩, ⟨"B", "C", 5⟩]) ∧
      (0 : ℚ) < 1 ∧
      ∃ q : ℚ,
        (dijkstraMult (Graph.mk [⟨"A", "A", 0, 0⟩, ⟨"B", "B", 0, 0⟩, ⟨"C", "C", 0, 0⟩]
            [⟨"A", "B", 5⟩, ⟨"B", "C", 5⟩]) "A" 1).1 "C" = (q : WithTop ℚ) ∧
          IsLeast (walkCostSet [⟨"A", "B", 5⟩, ⟨"B", "C", 5⟩] 1 "A" "C") q ∧
          ∃ es, IsWalkFrom [⟨"A", "B", 5⟩, ⟨"B", "C", 5⟩] "A" "C"
              ((dijkstraMult (Graph.mk [⟨"A", "A", 0, 0⟩, ⟨"B", "B", 0, 0⟩,
                ⟨"C", "C", 0, 0⟩] [⟨"A", "B", 5⟩, ⟨"B", "C", 5⟩]) "A" 1).2 "C") es ∧
            walkCost 1 es = q :=
  ⟨by decide, by norm_num,
    c1_dijkstra_shortest_paths
      (Graph.mk [⟨"A", "A", 0, 0⟩, ⟨"B", "B", 0, 0⟩, ⟨"C", "C", 0, 0⟩]
        [⟨"A", "B", 5⟩, ⟨"B", "C", 5⟩]) "A" 1 "C" (by decide) (by decide)
      (by norm_num)
      ⟨["A", "B", "C"], [⟨"A", "B", 5⟩, ⟨"B", "C", 5⟩], by decide, by decide,
        by decide⟩⟩

/-- **C10**. For every input graph, source and multiplier, `dijkstra`
terminates: the main loop needs at most one iteration per unvisited node
(every further iteration bound gives the same result, because each iteration
either settles exactly one node or exits), and every predecessor-link walk of
the reconstruction phase stabilizes after at most `g.nodes.length + 1` steps
(the predecessor links are acyclic). -/
theorem c10_termination (g : Graph) (sourceId : String) (m : ℚ) :
    (∀ f, (mkNodeSet (graphNodeIds g)).length ≤ f →
        dijkstraLoop g.edges m f (mkNodeSet (graphNodeIds g))
          (initDistances (graphNodeIds g) sourceId,
            initPrevious (graphNodeIds g)) = dijkstraState g sourceId m) ∧
      ∀ n, ∃ k, k ≤ g.nodes.length + 1 ∧ ∀ f, k ≤ f →
        walkPrev (dijkstraState g sourceId m).2 f n =
          walkPrev (dijkstraState g sourceId m).2 k n := by
  constructor
  · intro f hf
    rw [dijkstraLoop_fuel_eq g.edges m f _ _ hf]
    rfl
  · intro n
    by_cases hsrc : sourceId ∈ graphNodeIds g
    · obtain ⟨u', inv, _⟩ := dijkstraState_basic g sourceId m hsrc
      by_cases hpn : (dijkstraState g sourceId m).2 n = none
      · refine ⟨1, by omega, fun f hf => ?_⟩
        obtain ⟨f₀, rfl⟩ : ∃ f₀, f = f₀ + 1 := ⟨f - 1, by omega⟩
        rw [walkPrev_succ_none hpn, walkPrev_succ_none hpn]
      · obtain ⟨r, hr1, hr2, hr3, _⟩ := inv.rank
        have hNle : (mkNodeSet (graphNodeIds g)).length ≤ g.nodes.length := by
          rw [← graphNodeIds_length g]
          exact mkNodeSet_length_le _
        have hrn : r n < g.nodes.length := by
          by_cases hnu : n ∈ u'
          · have h1 := hr3 n hnu hpn
            have h2 : 1 ≤ u'.length :=
              List.length_pos.mpr (List.ne_nil_of_mem hnu)
            omega
          · have h1 := hr2 n hnu hpn
            omega
        exact ⟨g.nodes.length, by omega, fun f hf =>
          walkPrev_stable hr1 (r n + 1) n f g.nodes.length (by omega)
            (by omega) hrn⟩
    · have habs := dijkstraState_absent g sourceId m hsrc
      refine ⟨1, by omega, fun f hf => ?_⟩
      obtain ⟨f₀, rfl⟩ : ∃ f₀, f = f₀ + 1 := ⟨f - 1, by omega⟩
      rw [walkPrev_succ_none (habs n).2, walkPrev_succ_none (habs n).2]

/-- Witness for `c10_termination` at a concrete input. -/
theorem c10_witness :
    (∀ f, (mkNodeSet (graphNodeIds
          (Graph.mk [⟨"A", "A", 0, 0⟩, ⟨"B", "B", 0, 0⟩] [⟨"A", "B", 8⟩]))).length ≤ f →
        dijkstraLoop (Graph.mk [⟨"A", "A", 0, 0⟩, ⟨"B", "B", 0, 0⟩]
            [⟨"A", "B", 8⟩]).edges 1 f
          (mkNodeSet (graphNodeIds
            (Graph.mk [⟨"A", "A", 0, 0⟩, ⟨"B", "B", 0, 0⟩] [⟨"A", "B", 8⟩])))
          (initDistances (graphNodeIds
            (Graph.mk [⟨"A", "A", 0, 0⟩, ⟨"B", "B", 0, 0⟩] [⟨"A", "B", 8⟩])) "A",
            initPrevious (graphNodeIds
              (Graph.mk [⟨"A", "A", 0, 0⟩, ⟨"B", "B", 0, 0⟩] [⟨"A", "B", 8⟩]))) =
          dijkstraState (Graph.mk [⟨"A", "A", 0, 0⟩, ⟨"B", "B", 0, 0⟩]
            [⟨"A", "B", 8⟩]) "A" 1) ∧
      ∀ n, ∃ k, k ≤ (Graph.mk [⟨"A", "A", 0, 0⟩, ⟨"B", "B", 0, 0⟩]
          [⟨"A", "B", 8⟩]).nodes.length + 1 ∧ ∀ f, k ≤ f →
        walkPrev (dijkstraState (Graph.mk [⟨"A", "A", 0, 0⟩, ⟨"B", "B", 0, 0⟩]
            [⟨"A", "B", 8⟩]) "A" 1).2 f n =
          walkPrev (dijkstraState (Graph.mk [⟨"A", "A", 0, 0⟩, ⟨"B", "B", 0, 0⟩]
            [⟨"A", "B", 8⟩]) "A" 1).2 k n :=
  c10_termination (Graph.mk [⟨"A", "A", 0, 0⟩, ⟨"B", "B", 0, 0⟩] [⟨"A", "B", 8⟩])
    "A" 1

/-! ### Proportional multipliers give proportional runs -/

theorem scaleD_top (c : ℚ) : scaleD c ⊤ = ⊤ := rfl

theorem scaleD_coe (c q : ℚ) : scaleD c (q : WithTop ℚ) = ((c * q : ℚ) : WithTop ℚ) :=
  rfl

theorem scaleD_eq_top {c : ℚ} {x : WithTop ℚ} : scaleD c x = ⊤ ↔ x = ⊤ := by
  rcases x with _ | q
  · show scaleD c ⊤ = ⊤ ↔ (⊤ : WithTop ℚ) = ⊤
    rw [scaleD_top]
  · show scaleD c ((q : ℚ) : WithTop ℚ) = ⊤ ↔ ((q : ℚ) : WithTop ℚ) = ⊤
    rw [scaleD_coe]
    constructor
    · intro h
      exact absurd h (WithTop.coe_ne_top)
    · intro h
      exact absurd h (WithTop.coe_ne_top)

theorem scaleD_lt {c : ℚ} (hc : 0 < c) (x y : WithTop ℚ) :
    scaleD c x < scaleD c y ↔ x < y := by
  rcases x with _ | a <;> rcases y with _ | b
  · show scaleD c ⊤ < scaleD c ⊤ ↔ (⊤ : WithTop ℚ) < ⊤
    rw [scaleD_top]
  · show scaleD c ⊤ < scaleD c ((b : ℚ) : WithTop ℚ) ↔
      (⊤ : WithTop ℚ) < ((b : ℚ) : WithTop ℚ)
    rw [scaleD_top, scaleD_coe]
    simp [not_top_lt]
  · show scaleD c ((a : ℚ) : WithTop ℚ) < scaleD c ⊤ ↔
      ((a : ℚ) : WithTop ℚ) < (⊤ : WithTop ℚ)
    rw [scaleD_top, scaleD_coe]
    exact iff_of_true (WithTop.coe_lt_top _) (WithTop.coe_lt_top _)
  · show scaleD c ((a : ℚ) : WithTop ℚ) < scaleD c ((b : ℚ) : WithTop ℚ) ↔
      ((a : ℚ) : WithTop ℚ) < ((b : ℚ) : WithTop ℚ)
    rw [scaleD_coe, scaleD_coe, WithTop.coe_lt_coe, WithTop.coe_lt_coe]
    exact mul_lt_mul_left hc

theorem scaleD_add_coe (c : ℚ) (x : WithTop ℚ) (w : ℚ) :
    scaleD c (x + (w : WithTop ℚ)) = scaleD c x + ((c * w : ℚ) : WithTop ℚ) := by
  rcases x with _ | a
  · show scaleD c ((⊤ : WithTop ℚ) + _) = scaleD c ⊤ + _
    rw [top_add, scaleD_top, top_add]
  · show scaleD c (((a : ℚ) : WithTop ℚ) + _) = scaleD c ((a : ℚ) : WithTop ℚ) + _
    rw [← WithTop.coe_add, scaleD_coe, scaleD_coe, ← WithTop.coe_add, mul_add]

theorem findMinNode_scale {c : ℚ} (hc : 0 < c) (d : DistMap) :
    ∀ (u : List String) (o : Option String) (v : WithTop ℚ),
      u.foldl (findMinStep (fun x => scaleD c (d x))) (o, scaleD c v) =
        ((u.foldl (findMinStep d) (o, v)).1,
          scaleD c (u.foldl (findMinStep d) (o, v)).2) := by
  intro u
  induction u with
  | nil => exact fun o v => rfl
  | cons n u ih =>
    intro o v
    rw [List.foldl_cons, List.foldl_cons]
    have hstep : findMinStep (fun x => scaleD c (d x)) (o, scaleD c v) n =
        ((findMinStep d (o, v) n).1, scaleD c (findMinStep d (o, v) n).2) := by
      unfold findMinStep
      by_cases h : d n < v
      · rw [if_pos h]
        exact if_pos ((scaleD_lt hc (d n) v).mpr h)
      · rw [if_neg h]
        exact if_neg (fun h' => h ((scaleD_lt hc (d n) v).mp h'))
    rw [hstep]
    rcases findMinStep d (o, v) n with ⟨o', v'⟩
    exact ih o' v'

theorem relaxEdge_scale {c : ℚ} (hc : 0 < c) (m : ℚ) (cur : String)
    (u' : List String) (d : DistMap) (p : PrevMap) (e : Edge) :
    relaxEdge (c * m) cur u' (fun x => scaleD c (d x), p) e =
      (fun x => scaleD c ((relaxEdge m cur u' (d, p) e).1 x),
        (relaxEdge m cur u' (d, p) e).2) := by
  have hw : e.weight * (c * m) = c * (e.weight * m) := by ring
  have htent : scaleD c (d cur) + ((e.weight * (c * m) : ℚ) : WithTop ℚ) =
      scaleD c (d cur + ((e.weight * m : ℚ) : WithTop ℚ)) := by
    rw [scaleD_add_coe, hw]
  by_cases h1 : e.source = cur ∨ e.target = cur
  · by_cases h2 : (if e.source = cur then e.target else e.source) ∈ u'
    · by_cases h3 : d cur + ((e.weight * m : ℚ) : WithTop ℚ) <
          d (if e.source = cur then e.target else e.source)
      · have h3' : ((fun x => scaleD c (d x), p) : DistMap × PrevMap).1 cur +
            ((e.weight * (c * m) : ℚ) : WithTop ℚ) <
            ((fun x => scaleD c (d x), p) : DistMap × PrevMap).1
              (if e.source = cur then e.target else e.source) := by
          show scaleD c (d cur) + _ < scaleD c (d _)
          rw [htent]
          exact (scaleD_lt hc _ _).mpr h3
        have hkey : ∀ x : String,
            Function.update (fun y => scaleD c (d y))
              (if e.source = cur then e.target else e.source)
              (scaleD c (d cur) + ((e.weight * (c * m) : ℚ) : WithTop ℚ)) x =
            scaleD c (Function.update d
              (if e.source = cur then e.target else e.source)
              (d cur + ((e.weight * m : ℚ) : WithTop ℚ)) x) := by
          intro x
          rw [Function.update_apply, Function.update_apply]
          by_cases hx : x = (if e.source = cur then e.target else e.source)
          · rw [if_pos hx]
            rw [if_pos hx]
            exact htent
          · rw [if_neg hx]
            rw [if_neg hx]
        rw [relaxEdge_reduce_update (c * m) cur u'
            ((fun x => scaleD c (d x), p) : DistMap × PrevMap) e h1 h2 h3',
          relaxEdge_reduce_update m cur u' (d, p) e h1 h2 h3]
        dsimp only
        rw [funext hkey]
      · have h3' : ¬ (((fun x => scaleD c (d x), p) : DistMap × PrevMap).1 cur +
            ((e.weight * (c * m) : ℚ) : WithTop ℚ) <
            ((fun x => scaleD c (d x), p) : DistMap × PrevMap).1
              (if e.source = cur then e.target else e.source)) := by
          show ¬ (scaleD c (d cur) + _ < scaleD c (d _))
          rw [htent]
          exact fun h => h3 ((scaleD_lt hc _ _).mp h)
        rw [relaxEdge_reduce_id (c * m) cur u'
            ((fun x => scaleD c (d x), p) : DistMap × PrevMap) e (Or.inr (Or.inr h3')),
          relaxEdge_reduce_id m cur u' (d, p) e (Or.inr (Or.inr h3))]
    · rw [relaxEdge_reduce_id (c * m) cur u'
          ((fun x => scaleD c (d x), p) : DistMap × PrevMap) e (Or.inr (Or.inl h2)),
        relaxEdge_reduce_id m cur u' (d, p) e (Or.inr (Or.inl h2))]
  · rw [relaxEdge_reduce_id (c * m) cur u'
        ((fun x => scaleD c (d x), p) : DistMap × PrevMap) e (Or.inl h1),
      relaxEdge_reduce_id m cur u' (d, p) e (Or.inl h1)]

theorem relaxAll_scale {c : ℚ} (hc : 0 < c) (m : ℚ) (cur : String)
    (u' : List String) :
    ∀ (es : List Edge) (d : DistMap) (p : PrevMap),
      relaxAll es (c * m) cur u' (fun x => scaleD c (d x), p) =
        (fun x => scaleD c ((relaxAll es m cur u' (d, p)).1 x),
          (relaxAll es m cur u' (d, p)).2) := by
  intro es
  induction es with
  | nil => exact fun d p => rfl
  | cons e es ih =>
    intro d p
    show relaxAll es (c * m) cur u'
        (relaxEdge (c * m) cur u' (fun x => scaleD c (d x), p) e) =
      (fun x => scaleD c
          ((relaxAll es m cur u' (relaxEdge m cur u' (d, p) e)).1 x),
        (relaxAll es m cur u' (relaxEdge m cur u' (d, p) e)).2)
    rw [relaxEdge_scale hc m cur u' d p e]
    rcases relaxEdge m cur u' (d, p) e with ⟨d₁, p₁⟩
    exact ih d₁ p₁

theorem dijkstraLoop_scale {c : ℚ} (hc : 0 < c) (edges : List Edge) (m : ℚ) :
    ∀ (fuel : Nat) (u : List String) (d : DistMap) (p : PrevMap),
      dijkstraLoop edges (c * m) fuel u (fun x => scaleD c (d x), p) =
        (fun x => scaleD c ((dijkstraLoop edges m fuel u (d, p)).1 x),
          (dijkstraLoop edges m fuel u (d, p)).2) := by
  intro fuel
  induction fuel with
  | zero => exact fun u d p => rfl
  | succ fuel ih =>
    intro u d p
    rcases he : u.isEmpty with _ | _
    · have hfm' : findMinNode u (fun x => scaleD c (d x)) =
          ((findMinNode u d).1, scaleD c (findMinNode u d).2) := by
        show u.foldl (findMinStep (fun x => scaleD c (d x))) (none, ⊤) = _
        have h0 : ((none : Option String), (⊤ : WithTop ℚ)) =
            ((none : Option String), scaleD c (⊤ : WithTop ℚ)) := by
          rw [scaleD_top]
        rw [h0, findMinNode_scale hc d u none ⊤]
        rfl
      rcases hfm : findMinNode u d with ⟨co, v⟩
      have hfmS : findMinNode u (fun x => scaleD c (d x)) = (co, scaleD c v) := by
        rw [hfm', hfm]
      cases co with
      | none =>
        rw [dijkstraLoop_succ_none edges (c * m) fuel u
            ((fun x => scaleD c (d x), p) : DistMap × PrevMap) (scaleD c v) he hfmS,
          dijkstraLoop_succ_none edges m fuel u (d, p) v he hfm]
      | some cn =>
        obtain ⟨_, _, hdc, _⟩ := findMinNode_eq_some hfm
        have hdcS : ¬ ((fun x => scaleD c (d x), p) : DistMap × PrevMap).1 cn = ⊤ := by
          show ¬ scaleD c (d cn) = ⊤
          rw [scaleD_eq_top]
          exact hdc
        rw [dijkstraLoop_succ_some edges (c * m) fuel u
            ((fun x => scaleD c (d x), p) : DistMap × PrevMap) cn (scaleD c v) he
            hfmS hdcS,
          dijkstraLoop_succ_some edges m fuel u (d, p) cn v he hfm hdc]
        rw [relaxAll_scale hc m cn (u.erase cn) edges d p]
        rcases relaxAll edges m cn (u.erase cn) (d, p) with ⟨d₁, p₁⟩
        exact ih (u.erase cn) d₁ p₁
    · rw [dijkstraLoop_succ_empty edges (c * m) fuel u
          ((fun x => scaleD c (d x), p) : DistMap × PrevMap) he,
        dijkstraLoop_succ_empty edges m fuel u (d, p) he]

theorem dijkstraState_scale {c : ℚ} (hc : 0 < c) (g : Graph) (s : String)
    (m : ℚ) :
    dijkstraState g s (c * m) =
      (fun x => scaleD c ((dijkstraState g s m).1 x), (dijkstraState g s m).2) := by
  have hinit : (fun x => scaleD c (initDistances (graphNodeIds g) s x)) =
      initDistances (graphNodeIds g) s := by
    funext x
    rw [initDistances_apply]
    by_cases h1 : x ∈ graphNodeIds g
    · rw [if_pos h1]
      by_cases h2 : x = s
      · rw [if_pos h2]
        show scaleD c (((0 : ℚ)) : WithTop ℚ) = (((0 : ℚ)) : WithTop ℚ)
        rw [scaleD_coe, mul_zero]
      · rw [if_neg h2]
        exact scaleD_top c
    · rw [if_neg h1]
      exact scaleD_top c
  have hLHS : dijkstraState g s (c * m) =
      dijkstraLoop g.edges (c * m) (mkNodeSet (graphNodeIds g)).length
        (mkNodeSet (graphNodeIds g))
        (fun x => scaleD c (initDistances (graphNodeIds g) s x),
          initPrevious (graphNodeIds g)) := by
    rw [hinit]
    rfl
  rw [hLHS, dijkstraLoop_scale hc g.edges m (mkNodeSet (graphNodeIds g)).length
      (mkNodeSet (graphNodeIds g)) (initDistances (graphNodeIds g) s)
      (initPrevious (graphNodeIds g))]
  rfl

theorem relaxAll_nonneg (m : ℚ) (cur : String) (u' : List String) (hm : 0 ≤ m) :
    ∀ (es : List Edge), (∀ e ∈ es, 0 ≤ e.weight) →
      ∀ (dp : DistMap × PrevMap), (∀ n, 0 ≤ dp.1 n) →
        ∀ n, 0 ≤ (relaxAll es m cur u' dp).1 n := by
  intro es
  induction es with
  | nil => exact fun _ dp h n => h n
  | cons e es ih =>
    intro hw dp hd n
    show 0 ≤ (relaxAll es m cur u' (relaxEdge m cur u' dp e)).1 n
    refine ih (fun e' he' => hw e' (List.mem_cons_of_mem _ he'))
      (relaxEdge m cur u' dp e) (fun x => ?_) n
    rcases relaxEdge_char m cur u' dp e x with ⟨h1, _⟩ | ⟨_, _, h1, _⟩
    · rw [h1]
      exact hd x
    · rw [h1]
      refine add_nonneg (hd cur) ?_
      rw [← WithTop.coe_zero, WithTop.coe_le_coe]
      exact mul_nonneg (hw e (List.mem_cons_self e es)) hm

theorem dijkstraLoop_nonneg (edges : List Edge) (m : ℚ)
    (hw : ∀ e ∈ edges, 0 ≤ e.weight) (hm : 0 ≤ m) :
    ∀ (fuel : Nat) (u : List String) (d : DistMap) (p : PrevMap),
      (∀ n, 0 ≤ d n) → ∀ n, 0 ≤ (dijkstraLoop edges m fuel u (d, p)).1 n := by
  intro fuel
  induction fuel with
  | zero => exact fun u d p h n => h n
  | succ fuel ih =>
    intro u d p hd
    rcases he : u.isEmpty with _ | _
    · rcases hfm : findMinNode u d with ⟨co, v⟩
      cases co with
      | none =>
        rw [dijkstraLoop_succ_none edges m fuel u (d, p) v he hfm]
        exact hd
      | some cn =>
        obtain ⟨_, _, hdc, _⟩ := findMinNode_eq_some hfm
        rw [dijkstraLoop_succ_some edges m fuel u (d, p) cn v he hfm hdc]
        rcases hra : relaxAll edges m cn (u.erase cn) (d, p) with ⟨d₁, p₁⟩
        refine ih (u.erase cn) d₁ p₁ (fun n => ?_)
        have h := relaxAll_nonneg m cn (u.erase cn) hm edges hw (d, p) hd n
        rw [hra] at h
        exact h
    · rw [dijkstraLoop_succ_empty edges m fuel u (d, p) he]
      exact hd

theorem dijkstraState_nonneg (g : Graph) (s : String) (m : ℚ)
    (hw : ∀ e ∈ g.edges, 0 ≤ e.weight) (hm : 0 ≤ m) :
    ∀ n, 0 ≤ (dijkstraState g s m).1 n := by
  have hinit : ∀ n, 0 ≤ initDistances (graphNodeIds g) s n := by
    intro n
    rw [initDistances_apply]
    by_cases h1 : n ∈ graphNodeIds g
    · rw [if_pos h1]
      by_cases h2 : n = s
      · rw [if_pos h2]
      · rw [if_neg h2]
        exact le_top
    · rw [if_neg h1]
      exact le_top
  show ∀ n, 0 ≤ (dijkstraLoop g.edges m (mkNodeSet (graphNodeIds g)).length
      (mkNodeSet (graphNodeIds g))
      (initDistances (graphNodeIds g) s, initPrevious (graphNodeIds g))).1 n
  exact dijkstraLoop_nonneg g.edges m hw hm _ _ _ _ hinit

/-- **C8.** For every valid graph (non-negative weights, endpoints present),
sourceId present in the graph, and positive traffic multipliers `m1 ≤ m2`:
for every node, the distance computed by `dijkstra` is infinite under `m1`
exactly when it is infinite under `m2` (reachability is unchanged), and any
finite distance under `m2` is at least the corresponding finite distance
under `m1` (raising traffic never decreases a distance). -/
theorem c8_traffic_monotone (g : Graph) (s : String) (m1 m2 : ℚ)
    (hval : ValidGraph g) (hs : s ∈ graphNodeIds g)
    (h1 : 0 < m1) (h12 : m1 ≤ m2) (n : String) :
    ((dijkstraMult g s m1).1 n = ⊤ ↔ (dijkstraMult g s m2).1 n = ⊤) ∧
      ∀ q1 q2 : ℚ, (dijkstraMult g s m1).1 n = (q1 : WithTop ℚ) →
        (dijkstraMult g s m2).1 n = (q2 : WithTop ℚ) → q1 ≤ q2 := by
  have hc : 0 < m2 / m1 := div_pos (lt_of_lt_of_le h1 h12) h1
  have hm2 : m2 = (m2 / m1) * m1 := (div_mul_cancel₀ m2 (ne_of_gt h1)).symm
  have hstate := dijkstraState_scale hc g s m1
  rw [← hm2] at hstate
  have hd2 : (dijkstraState g s m2).1 =
      fun x => scaleD (m2 / m1) ((dijkstraState g s m1).1 x) := by
    rw [hstate]
  have hnn : ∀ x, 0 ≤ (dijkstraState g s m1).1 x :=
    dijkstraState_nonneg g s m1 (fun e he => (hval e he).1) (le_of_lt h1)
  constructor
  · rw [dijkstraMult_fst, dijkstraMult_fst, hd2]
    exact (@scaleD_eq_top (m2 / m1) ((dijkstraState g s m1).1 n)).symm
  · intro q1 q2 hq1 hq2
    rw [dijkstraMult_fst] at hq1
    rw [dijkstraMult_fst, hd2] at hq2
    have hq2' : scaleD (m2 / m1) ((dijkstraState g s m1).1 n) =
        (q2 : WithTop ℚ) := hq2
    rw [hq1, scaleD_coe] at hq2'
    have hq : (m2 / m1) * q1 = q2 := WithTop.coe_injective hq2'
    have h0q1 : 0 ≤ q1 := by
      have h := hnn n
      rw [hq1, ← WithTop.coe_zero, WithTop.coe_le_coe] at h
      exact h
    have hc1 : 1 ≤ m2 / m1 := (one_le_div h1).mpr h12
    rw [← hq]
    exact le_mul_of_one_le_left h0q1 hc1

theorem c8_witness :
    ValidGraph (Graph.mk [⟨"A", "A", 0, 0⟩, ⟨"B", "B", 0, 0⟩] [⟨"A", "B", 10⟩]) ∧
      "A" ∈ graphNodeIds
        (Graph.mk [⟨"A", "A", 0, 0⟩, ⟨"B", "B", 0, 0⟩] [⟨"A", "B", 10⟩]) ∧
      (0 : ℚ) < 4/5 ∧ (4/5 : ℚ) ≤ 3/2 ∧
      (((dijkstraMult (Graph.mk [⟨"A", "A", 0, 0⟩, ⟨"B", "B", 0, 0⟩]
            [⟨"A", "B", 10⟩]) "A" (4/5)).1 "B" = ⊤ ↔
          (dijkstraMult (Graph.mk [⟨"A", "A", 0, 0⟩, ⟨"B", "B", 0, 0⟩]
            [⟨"A", "B", 10⟩]) "A" (3/2)).1 "B" = ⊤) ∧
        ∀ q1 q2 : ℚ,
          (dijkstraMult (Graph.mk [⟨"A", "A", 0, 0⟩, ⟨"B", "B", 0, 0⟩]
            [⟨"A", "B", 10⟩]) "A" (4/5)).1 "B" = (q1 : WithTop ℚ) →
          (dijkstraMult (Graph.mk [⟨"A", "A", 0, 0⟩, ⟨"B", "B", 0, 0⟩]
            [⟨"A", "B", 10⟩]) "A" (3/2)).1 "B" = (q2 : WithTop ℚ) → q1 ≤ q2) :=
  ⟨by with_unfolding_all decide, by with_unfolding_all decide,
    by norm_num, by norm_num,
    c8_traffic_monotone (Graph.mk [⟨"A", "A", 0, 0⟩, ⟨"B", "B", 0, 0⟩]
        [⟨"A", "B", 10⟩]) "A" (4/5) (3/2)
      (by with_unfolding_all decide) (by with_unfolding_all decide)
      (by norm_num) (by norm_num) "B"⟩

end RouteRainbow
